import Mathlib

/-!
Verification of the qik task runner's dependency/fingerprint model, cache
protocol and DAG scheduler, shallowly embedded from the Python sources
(`qik/hash.py`, `qik/dep.py`, `qik/runnable.py`, `qik/cache.py`,
`qik/runner.py`, `qik/errors.py`).

External collaborators are kept abstract, mirroring the specification's
scope boundary: the 128-bit digest `xxhash.xxh128_hexdigest` is an
uninterpreted function `H : String → String`, `msgspec.json.encode` of a
runnable definition is an uninterpreted encoder, and git/venv/plugin
lookups are fields of an `Env` record.  Everything the repository itself
computes (sorting, deduplication, hash composition, cache get/set logic,
manifest decoding, scheduler bookkeeping) is embedded executably.
-/

namespace Qik

/-- Lexicographic code-point comparison of character lists — the order
Python's `sorted` uses on strings. -/
def charsLe : List Char → List Char → Bool
  | [], _ => true
  | _ :: _, [] => false
  | a :: as, b :: bs =>
    if a.toNat < b.toNat then true
    else if b.toNat < a.toNat then false
    else charsLe as bs

/-- The string order used by `sorted`. -/
def pyle (a b : String) : Prop := charsLe a.data b.data = true

instance : DecidableRel pyle := fun a b =>
  instDecidableEqBool (charsLe a.data b.data) true

theorem charsLe_total : ∀ x y : List Char,
    charsLe x y = true ∨ charsLe y x = true
  | [], _ => Or.inl rfl
  | _ :: _, [] => Or.inr rfl
  | a :: as, b :: bs => by
    simp only [charsLe]
    rcases Nat.lt_trichotomy a.toNat b.toNat with h | h | h
    · refine Or.inl ?_
      rw [if_pos h]
    · rw [if_neg (by omega), if_neg (by omega), if_neg (by omega),
        if_neg (by omega)]
      exact charsLe_total as bs
    · refine Or.inr ?_
      rw [if_pos h]

theorem charsLe_trans : ∀ x y z : List Char,
    charsLe x y = true → charsLe y z = true → charsLe x z = true
  | [], _, _, _, _ => rfl
  | a :: as, [], _, hxy, _ => by cases hxy
  | a :: as, b :: bs, [], _, hyz => by cases hyz
  | a :: as, b :: bs, c :: cs, hxy, hyz => by
    simp only [charsLe] at *
    rcases Nat.lt_trichotomy a.toNat b.toNat with hab | hab | hab <;>
      rcases Nat.lt_trichotomy b.toNat c.toNat with hbc | hbc | hbc
    all_goals first
      | (rw [if_pos (by omega)])
      | (rw [if_neg (by omega), if_neg (by omega)]
         rw [if_neg (by omega), if_neg (by omega)] at hxy hyz
         exact charsLe_trans as bs cs hxy hyz)
      | (exfalso
         rw [if_neg (by omega), if_pos (by omega)] at hxy
         exact Bool.false_ne_true hxy)
      | (exfalso
         rw [if_neg (by omega), if_pos (by omega)] at hyz
         exact Bool.false_ne_true hyz)

theorem charsLe_antisymm : ∀ x y : List Char,
    charsLe x y = true → charsLe y x = true → x = y
  | [], [], _, _ => rfl
  | [], _ :: _, _, hyx => by cases hyx
  | _ :: _, [], hxy, _ => by cases hxy
  | a :: as, b :: bs, hxy, hyx => by
    simp only [charsLe] at hxy hyx
    rcases Nat.lt_trichotomy a.toNat b.toNat with h | h | h
    · rw [if_neg (by omega), if_pos h] at hyx
      cases hyx
    · rw [if_neg (by omega), if_neg (by omega)] at hxy hyx
      have hab : a = b := Char.ext (UInt32.ext h)
      rw [hab, charsLe_antisymm as bs hxy hyx]
    · rw [if_neg (by omega), if_pos h] at hxy
      cases hxy

/-- Python's `sorted` on strings: ascending lexicographic order by code
point.  On strings every correct sort produces the same list (duplicates
are indistinguishable), so insertion sort models Python's stable sort. -/
def pysorted (l : List String) : List String :=
  l.insertionSort pyle

/-- Python's `str.join` on a list of strings (used as `"".join(...)`). -/
def pyconcat (l : List String) : String :=
  String.join l

theorem pysorted_sorted (l : List String) :
    List.Sorted pyle (pysorted l) := by
  letI : IsTotal String pyle := ⟨fun a b => charsLe_total a.data b.data⟩
  letI : IsTrans String pyle := ⟨fun a b c => charsLe_trans a.data b.data c.data⟩
  exact List.sorted_insertionSort pyle l

theorem pysorted_perm (l : List String) : (pysorted l).Perm l :=
  List.perm_insertionSort _ l

/-- Sorting is a canonical form: permutations sort identically. -/
theorem pysorted_eq_of_perm {l₁ l₂ : List String} (h : l₁.Perm l₂) :
    pysorted l₁ = pysorted l₂ := by
  letI : IsAntisymm String pyle := ⟨fun a b hab hba => by
    have := charsLe_antisymm a.data b.data hab hba
    cases a with
    | mk d1 =>
      cases b with
      | mk d2 => exact congrArg String.mk this⟩
  refine List.eq_of_perm_of_sorted ?_ (pysorted_sorted l₁) (pysorted_sorted l₂)
  exact ((pysorted_perm l₁).trans h).trans (pysorted_perm l₂).symm

/-- Two lists with the same members dedup to permutations of each other,
hence share a sorted dedup (the "sorted set" canonical form). -/
theorem pysorted_dedup_eq_of_mem_iff {l₁ l₂ : List String}
    (h : ∀ x, x ∈ l₁ ↔ x ∈ l₂) :
    pysorted l₁.dedup = pysorted l₂.dedup := by
  refine pysorted_eq_of_perm ?_
  refine (List.perm_ext_iff_of_nodup l₁.nodup_dedup l₂.nodup_dedup).2 ?_
  intro a
  simpa [List.mem_dedup] using h a

namespace Hash

/-- `qik.hash.strs`: `xxhash.xxh128_hexdigest("".join(sorted(vals)))`.
`H` is the uninterpreted digest. -/
def strs (H : String → String) (vals : List String) : String :=
  H (pyconcat (pysorted vals))

/-- `qik.hash.val`: digest of the input verbatim. -/
def val (H : String → String) (input : String) : String :=
  H input

/-- `qik.hash.pydists`: digest of `"".join(f"{p}{venv.version(p)}" for p in
sorted(vals))`.  `version` abstracts `venv.version` (resolved in the
environment). -/
def pydists (H : String → String) (version : String → String)
    (vals : List String) : String :=
  H (pyconcat ((pysorted vals).map (fun p => p ++ version p)))

end Hash

/-! ## Python dict bookkeeping

Python dict comprehensions and `dict | dict` unions insert keys in first
occurrence order and let later values overwrite earlier ones in place. -/

/-- Insert-or-update an association list, preserving the position of an
existing key (Python dict assignment semantics). -/
def dictUpsert {α : Type} : List (String × α) → String → α → List (String × α)
  | [], k, v => [(k, v)]
  | (k', v') :: rest, k, v =>
    if k' = k then (k, v) :: rest else (k', v') :: dictUpsert rest k v

/-- Build a dict from pairs: later pairs overwrite earlier values while the
key keeps its first position. -/
def dictOfList {α : Type} (pairs : List (String × α)) : List (String × α) :=
  pairs.foldl (fun acc kv => dictUpsert acc kv.1 kv.2) []

/-- `d1 | d2`: right-hand entries overwrite. -/
def dictUnion {α : Type} (d1 d2 : List (String × α)) : List (String × α) :=
  d2.foldl (fun acc kv => dictUpsert acc kv.1 kv.2) d1

/-- Deduplicate keeping the FIRST occurrence (order of `dict`/`Counter`
keys in Python). -/
def dedupFirst (l : List String) : List String :=
  l.foldl (fun acc x => if x ∈ acc then acc else acc ++ [x]) []

/-- Truthiness of an optional Python string: `None` and `""` are falsy. -/
def pyFalsy : Option String → Bool
  | none => true
  | some s => s = ""

/-! ## Data model (`qik/dep.py`, `qik/runnable.py`)

The dependency variants and the runnable record, as declared in the
source.  External collaborators (venvs, spaces, the command registry, the
git index, the `qik.pygraph` plugin and serialized-dep files) are
abstracted into an `Env` record; spec §1 places them outside the core. -/

/-- `qik.conf.CacheWhen = Literal["success", "failed", "finished"]`. -/
inductive CacheWhen
  | success
  | failed
  | finished
  deriving DecidableEq, Repr

/-- The `venv` field of a runnable: `UnsetType | None = UNSET`. -/
inductive VenvField
  | unsetV
  | noneV
  deriving DecidableEq, Repr

/-- The fields of `qik.runnable.Runnable` that dependency projections read
from a dep's target runnable (`runnable.obj.…`): its name, module tag and
artifact globs. -/
structure RunnableObj where
  name : String
  module : Option String
  artifacts : List String
  deriving DecidableEq, Repr

/-- `qik.dep.Runnable`: a runnable included by a dependency. -/
structure DepRunnable where
  name : String
  obj : RunnableObj
  strict : Bool := false
  isolated : Option Bool := none
  deriving DecidableEq, Repr

/-- `qik.dep.Serialized`: `{globs, pydists, hash?}` loaded by `Load`. -/
structure Serialized where
  globs : List String := []
  pydists : List String := []
  hash : Option String := none
  deriving DecidableEq, Repr

/-- The dependency variants of `qik/dep.py`.  The experimental `Val`
variant is included; its `vals` projection raises `NotImplementedError`
in the source, which the projection models as `none`. -/
inductive Dep
  | Glob (val : String)
  | Val (val : String) (file : String)
  | Cmd (val : String) (strict : Bool) (isolated : Option Bool)
  | Pydist (val : String)
  | Const (val : String)
  | Pygraph (val : String)
  | Load (val : String) (default : List String)
  deriving DecidableEq, Repr

/-- A virtual environment, as consumed by `DepsCollection`
(`qik/venv.py` is environment-resolved, out of core scope). -/
structure Venv where
  glob_deps : List String
  const_deps : List String
  since_deps : List String
  runnable_deps : List (String × DepRunnable)
  version : String → String

/-- A space, as consumed by `DepsCollection` (`qik/space.py`). -/
structure Space where
  glob_deps : List String
  venv : Venv

/-- `qik.runnable.Runnable` (msgspec struct, fields in declaration
order). -/
structure Runnable where
  name : String
  cmd : String
  val : String
  cache : String
  cache_when : CacheWhen
  shell : Bool := true
  deps : List Dep := []
  artifacts : List String := []
  module : Option String := none
  args : List (String × String) := []
  space : Option String := none
  venv : VenvField := VenvField.unsetV
  environ : List (String × String) := []

/-- `msgspec.structs.replace(self, cache="", cache_when="")`: the runnable
definition with the two cache-policy fields replaced by the constant `""`.
Since the replaced fields are constants, the record keeps only the
remaining fields; the abstract JSON encoder renders the constants. -/
structure ScrubbedRunnable where
  name : String
  cmd : String
  val : String
  shell : Bool
  deps : List Dep
  artifacts : List String
  module : Option String
  args : List (String × String)
  space : Option String
  venv : VenvField
  environ : List (String × String)

/-- The ambient environment: the digest function, the msgspec JSON encoder
of a (scrubbed) runnable definition, and the external lookups used by the
dependency projections and the git-backed glob hasher. -/
structure Env where
  H : String → String
  encode : ScrubbedRunnable → String
  spaceLoad : String → Space
  activeVenv : Venv
  cmdLoadObjs : String → List (String × String) → List RunnableObj
  loadSerialized : String → Option Serialized
  pygraphLockCmdName : String
  pygraphLockPath : String → String
  gitLsFiles : List String → List (String × String)
  gitHashModified : List String → List String
  privGitHashObject : List String → String
  privWorkDir : String
  globMatch : String → String → Bool

namespace Dep

/-- `BaseDep.runnables` and overrides: `Cmd` and `Pygraph` expand through
the command registry (`qik.cmd.load(...).runnables.values()`), wrapping
each target with the dep's `strict`/`isolated` flags
(`dep.py` lines 159-167, 170-174, 207-216). -/
def runnablesProj (env : Env) : Dep → List DepRunnable
  | Cmd v strict isolated =>
    (env.cmdLoadObjs v []).map
      (fun obj => { name := obj.name, obj := obj, strict := strict, isolated := isolated })
  | Pygraph v =>
    (env.cmdLoadObjs env.pygraphLockCmdName [("pyimport", v)]).map
      (fun obj => { name := obj.name, obj := obj, strict := true, isolated := none })
  | _ => []

/-- `globs` projection: `Glob` yields its pattern, `Pygraph` its lock
path, `Load` the deserialized globs or its declared default. -/
def globsProj (env : Env) : Dep → List String
  | Glob v => [v]
  | Pygraph v => [env.pygraphLockPath v]
  | Load v default =>
    match env.loadSerialized v with
    | some s => s.globs
    | none => default
  | _ => []

/-- `pydists` projection: `Pydist` yields its name, `Load` the
deserialized pydists (or none when the file is absent). -/
def pydistsProj (env : Env) : Dep → List String
  | Pydist v => [v]
  | Load v _ =>
    match env.loadSerialized v with
    | some s => s.pydists
    | none => []
  | _ => []

/-- `vals` projection: empty for every variant except `Val`, whose
property raises `NotImplementedError` (modeled as `none`). -/
def valsProj : Dep → Option (List String)
  | Val _ _ => none
  | _ => some []

/-- `isinstance(dep, qik.dep.Const)` — the value of a `Const` dep. -/
def constVal : Dep → Option String
  | Const v => some v
  | _ => none

end Dep

namespace Hash

/-- The private artifact sub-repo scope prefix in `qik.hash.globs`. -/
def globPrivPrefix : String := "._qik/artifacts/"

/-- The single-quote wrapper `f"'{glob}'"` used on shell patterns. -/
def quoteStr : String := String.singleton (Char.ofNat 39)

/-- `sorted(f"'{glob[16:]}'" for glob in globs if glob.startswith("._qik/artifacts/"))`. -/
def privPatterns (vals : List String) : List String :=
  pysorted ((vals.dedup.filter (fun g => globPrivPrefix.isPrefixOf g)).map
    (fun g => quoteStr ++ g.drop 16 ++ quoteStr))

/-- `sorted(f"'{glob}'" for glob in globs if not glob.startswith(...))`. -/
def repoPatterns (vals : List String) : List String :=
  pysorted ((vals.dedup.filter (fun g => ¬ globPrivPrefix.isPrefixOf g)).map
    (fun g => quoteStr ++ g ++ quoteStr))

/-- The main-repo half of `qik.hash.globs`: builds a `path → objectid`
dict from the `git ls-files -cm` lines; paths listed twice are modified
and their object ids are recomputed via `git hash-object` (too few
recomputed lines raises `RuntimeError`, modeled as `none`); concatenates
`path ‖ objectid` in dict order. -/
def repoHashOf (env : Env) (pats : List String) : Option String :=
  if pats.isEmpty then some "" else
    let lines := env.gitLsFiles pats
    let hashes := dictOfList lines
    let paths := lines.map (fun x => x.1)
    let modified := (dedupFirst paths).filter (fun p => paths.count p > 1)
    if modified.isEmpty then
      some (pyconcat (hashes.map (fun nh => nh.1 ++ nh.2)))
    else
      let modLines := env.gitHashModified pats
      if modified.length ≤ modLines.length then
        let hashes2 := (modified.zip modLines).foldl
          (fun acc nh => dictUpsert acc nh.1 nh.2) hashes
        some (pyconcat (hashes2.map (fun nh => nh.1 ++ nh.2)))
      else
        none

/-- `qik.hash.globs` (`hash.py` lines 21-94): content-addressed hashing
of glob patterns through git.  Empty input digests to `""`; otherwise the
patterns are deduplicated (`set`), split into the private-artifact scope
and the main-repo scope, quoted and sorted, and the digest covers
`priv_hash + repo_hash`. -/
def globs (env : Env) (vals : List String) : Option String :=
  if vals.isEmpty then some "" else
    let privHash :=
      if (privPatterns vals).isEmpty then ""
      else env.privGitHashObject (privPatterns vals)
    (repoHashOf env (repoPatterns vals)).map (fun rh => env.H (privHash ++ rh))

end Hash

/-! ## `DepsCollection` and the runnable fingerprint (`qik/runnable.py`) -/

namespace Runnable

/-- `resolved_space`: `qik.space.load(self.space) if self.space else None`
(an empty name is falsy). -/
def resolved_space (env : Env) (r : Runnable) : Option Space :=
  match r.space with
  | some s => if s = "" then none else some (env.spaceLoad s)
  | none => none

/-- `resolved_venv`: the active venv when there is no resolved space or
`venv is None`, else the space's venv. -/
def resolved_venv (env : Env) (r : Runnable) : Venv :=
  match resolved_space env r with
  | none => env.activeVenv
  | some sp =>
    match r.venv with
    | VenvField.noneV => env.activeVenv
    | VenvField.unsetV => sp.venv

end Runnable

namespace DepsCollection

/-- `self.space_globs`: the resolved space's glob deps, else the empty
set. -/
def space_globs (env : Env) (r : Runnable) : List String :=
  match Runnable.resolved_space env r with
  | some sp => sp.glob_deps
  | none => []

/-- `runnables`: dict comprehension over every dep's runnables, keyed by
name, filtered by module compatibility, unioned (`|`) with the venv's
runnable deps (`runnable.py` lines 84-91). -/
def runnables (env : Env) (r : Runnable) : List (String × DepRunnable) :=
  dictUnion
    (dictOfList ((r.deps.flatMap (Dep.runnablesProj env)).filterMap
      (fun dr =>
        if pyFalsy r.module || pyFalsy dr.obj.module || decide (r.module = dr.obj.module)
        then some (dr.name, dr) else none)))
    (Runnable.resolved_venv env r).runnable_deps

/-- `globs`: union of each dep's globs, the artifacts of every dep
runnable, the venv's glob deps and the space's glob deps
(`runnable.py` lines 48-59); a Python `set`, modeled by `dedup`. -/
def globs (env : Env) (r : Runnable) : List String :=
  ((r.deps.flatMap (Dep.globsProj env))
    ++ (runnables env r).flatMap (fun kv => kv.2.obj.artifacts)
    ++ (Runnable.resolved_venv env r).glob_deps
    ++ space_globs env r).dedup

/-- `consts`: the values of `Const` deps plus the venv's const deps. -/
def consts (env : Env) (r : Runnable) : List String :=
  ((r.deps.filterMap Dep.constVal) ++ (Runnable.resolved_venv env r).const_deps).dedup

/-- `vals`: union of each dep's vals; `none` when a `Val` dep raises
`NotImplementedError`. -/
def vals (r : Runnable) : Option (List String) :=
  (r.deps.mapM Dep.valsProj).map (fun ls => ls.flatten.dedup)

/-- `pydists`: union of each dep's pydists. -/
def pydists (env : Env) (r : Runnable) : List String :=
  (r.deps.flatMap (Dep.pydistsProj env)).dedup

/-- `consts_hash = qik.hash.strs(*self.consts)`. -/
def consts_hash (env : Env) (r : Runnable) : String :=
  Hash.strs env.H (consts env r)

/-- `hash_vals = qik.hash.strs(*self.vals)`. -/
def hash_vals (env : Env) (r : Runnable) : Option String :=
  (vals r).map (Hash.strs env.H)

/-- `hash_pydists = qik.hash.pydists(*self.pydists, venv=self.venv)`. -/
def hash_pydists (env : Env) (r : Runnable) : String :=
  Hash.pydists env.H (Runnable.resolved_venv env r).version (pydists env r)

/-- `hash_globs = qik.hash.globs(*self.globs)`. -/
def hash_globs (env : Env) (r : Runnable) : Option String :=
  Hash.globs env (globs env r)

/-- `DepsCollection.hash`: `strs(consts_hash, hash_vals(), hash_globs(),
hash_pydists())` (`runnable.py` lines 110-114), propagating a raise from
`vals` or `globs`. -/
def hash (env : Env) (r : Runnable) : Option String := do
  let vh ← hash_vals env r
  let gh ← hash_globs env r
  pure (Hash.strs env.H [consts_hash env r, vh, gh, hash_pydists env r])

end DepsCollection

namespace Runnable

/-- `msgspec.structs.replace(self, cache="", cache_when="")`. -/
def scrub (r : Runnable) : ScrubbedRunnable :=
  ⟨r.name, r.cmd, r.val, r.shell, r.deps, r.artifacts, r.module, r.args,
    r.space, r.venv, r.environ⟩

/-- `spec_hash`: hash of the JSON-encoded runnable definition with the
caching arguments replaced by `""` (`runnable.py` lines 273-280). -/
def spec_hash (env : Env) (r : Runnable) : String :=
  Hash.val env.H (env.encode r.scrub)

/-- `Runnable.hash`: `strs(self.spec_hash, self.deps_collection.hash())`
(`runnable.py` lines 282-284). -/
def hash (env : Env) (r : Runnable) : Option String :=
  (DepsCollection.hash env r).map
    (fun dh => Hash.strs env.H [spec_hash env r, dh])

/-- `should_cache(code)` (`runnable.py` lines 286-295). -/
def should_cache (r : Runnable) (code : Int) : Bool :=
  match r.cache_when with
  | CacheWhen.success => decide (code = 0)
  | CacheWhen.failed => decide (code ≠ 0)
  | CacheWhen.finished => true

end Runnable

/-! ## Canonicalization lemmas -/

theorem isEmpty_eq_of_mem_iff {l₁ l₂ : List String}
    (h : ∀ x, x ∈ l₁ ↔ x ∈ l₂) : l₁.isEmpty = l₂.isEmpty := by
  cases l₁ with
  | nil =>
    cases l₂ with
    | nil => rfl
    | cons b t => exact absurd ((h b).2 (List.mem_cons_self b t)) (List.not_mem_nil b)
  | cons a t =>
    cases l₂ with
    | nil => exact absurd ((h a).1 (List.mem_cons_self a t)) (List.not_mem_nil a)
    | cons b t' => rfl

theorem dedup_filter_perm_of_mem_iff {l₁ l₂ : List String}
    (h : ∀ x, x ∈ l₁ ↔ x ∈ l₂) (p : String → Bool) :
    (l₁.dedup.filter p).Perm (l₂.dedup.filter p) := by
  refine (List.perm_ext_iff_of_nodup (l₁.nodup_dedup.filter p)
    (l₂.nodup_dedup.filter p)).2 ?_
  intro a
  simp only [List.mem_filter, List.mem_dedup]
  exact and_congr_left (fun _ => h a)

/-- Set-equal inputs produce the same sorted-set digest via `strs∘dedup`. -/
theorem strs_dedup_eq_of_mem_iff (H : String → String) {l₁ l₂ : List String}
    (h : ∀ x, x ∈ l₁ ↔ x ∈ l₂) :
    Hash.strs H l₁.dedup = Hash.strs H l₂.dedup := by
  unfold Hash.strs
  rw [pysorted_dedup_eq_of_mem_iff h]

theorem privPatterns_eq_of_mem_iff {l₁ l₂ : List String}
    (h : ∀ x, x ∈ l₁ ↔ x ∈ l₂) :
    Hash.privPatterns l₁ = Hash.privPatterns l₂ := by
  unfold Hash.privPatterns
  exact pysorted_eq_of_perm ((dedup_filter_perm_of_mem_iff h _).map _)

theorem repoPatterns_eq_of_mem_iff {l₁ l₂ : List String}
    (h : ∀ x, x ∈ l₁ ↔ x ∈ l₂) :
    Hash.repoPatterns l₁ = Hash.repoPatterns l₂ := by
  unfold Hash.repoPatterns
  exact pysorted_eq_of_perm ((dedup_filter_perm_of_mem_iff h _).map _)

theorem globs_hash_eq_of_mem_iff (env : Env) {l₁ l₂ : List String}
    (h : ∀ x, x ∈ l₁ ↔ x ∈ l₂) :
    Hash.globs env l₁ = Hash.globs env l₂ := by
  unfold Hash.globs
  rw [isEmpty_eq_of_mem_iff h, privPatterns_eq_of_mem_iff h,
    repoPatterns_eq_of_mem_iff h]

theorem pydists_dedup_eq_of_mem_iff (H version : String → String)
    {l₁ l₂ : List String} (h : ∀ x, x ∈ l₁ ↔ x ∈ l₂) :
    Hash.pydists H version l₁.dedup = Hash.pydists H version l₂.dedup := by
  unfold Hash.pydists
  rw [pysorted_dedup_eq_of_mem_iff h]

/-! ## Concrete fixtures for witnesses -/

/-- A trivial venv for concrete evaluations. -/
def venv0 : Venv := ⟨[], [], [], [], fun _ => ""⟩

/-- A trivial space for concrete evaluations. -/
def space0 : Space := ⟨[], venv0⟩

/-- A concrete environment: identity digest, empty git index, no plugins.
Used only to evaluate the embedding at witness inputs. -/
def env0 : Env :=
  ⟨id, fun _ => "", fun _ => space0, venv0, fun _ _ => [], fun _ => none,
    "pygraph.lock", fun v => v, fun _ => [], fun _ => [], fun _ => "", "._qik",
    fun pat p => pat = p⟩

/-- A concrete runnable with one glob dependency. -/
def r0 : Runnable :=
  { name := "lint", cmd := "lint", val := "rg TODO src", cache := "local",
    cache_when := CacheWhen.success, deps := [Dep.Glob "src"] }

/-! ## Claims C1, C2, C7 -/

/-- C1: a runnable's fingerprint `Runnable.hash()` is the digest
combination of exactly `spec_hash`, `consts_hash`, `vals_hash`,
`globs_hash` and `pydists_hash` (conjunct 1, the decomposition computed by
`runnable.py` lines 282-284 and 110-114, with the four projection hashes
combined by `strs` and then combined with `spec_hash` by `strs`);
`spec_hash` excludes the cache policy fields (conjunct 2); and the members
of each projection are canonicalized to a sorted set before hashing:
set-equal member lists give identical `consts`/`vals` digests (conjunct
3), identical glob digests (conjunct 4) and identical pydist digests
(conjunct 5). -/
theorem claim_C1_fingerprint (env : Env) (r : Runnable) :
    (∀ vh gh, DepsCollection.hash_vals env r = some vh →
        DepsCollection.hash_globs env r = some gh →
        Runnable.hash env r =
          some (Hash.strs env.H [Runnable.spec_hash env r,
            Hash.strs env.H [DepsCollection.consts_hash env r, vh, gh,
              DepsCollection.hash_pydists env r]])) ∧
    (∀ c w, Runnable.spec_hash env { r with cache := c, cache_when := w } =
        Runnable.spec_hash env r) ∧
    (∀ l₁ l₂ : List String, (∀ x, x ∈ l₁ ↔ x ∈ l₂) →
        Hash.strs env.H l₁.dedup = Hash.strs env.H l₂.dedup) ∧
    (∀ l₁ l₂ : List String, (∀ x, x ∈ l₁ ↔ x ∈ l₂) →
        Hash.globs env l₁ = Hash.globs env l₂) ∧
    (∀ (version : String → String) (l₁ l₂ : List String),
        (∀ x, x ∈ l₁ ↔ x ∈ l₂) →
        Hash.pydists env.H version l₁.dedup = Hash.pydists env.H version l₂.dedup) := by
  refine ⟨?_, ?_, ?_, ?_, ?_⟩
  · intro vh gh h1 h2
    simp [Runnable.hash, DepsCollection.hash, h1, h2]
  · intro c w
    cases r
    rfl
  · intro l₁ l₂ h
    exact strs_dedup_eq_of_mem_iff env.H h
  · intro l₁ l₂ h
    exact globs_hash_eq_of_mem_iff env h
  · intro version l₁ l₂ h
    exact pydists_dedup_eq_of_mem_iff env.H version h

/-- Witness for C1 at the concrete runnable `r0` in `env0`. -/
theorem claim_C1_fingerprint_witness :
    Runnable.hash env0 r0 =
      some (Hash.strs env0.H [Runnable.spec_hash env0 r0,
        Hash.strs env0.H [DepsCollection.consts_hash env0 r0, "", "",
          DepsCollection.hash_pydists env0 r0]]) :=
  (claim_C1_fingerprint env0 r0).1 "" "" (by decide) (by decide)

/-- C2: the fingerprint is invariant under changes to `cache` and
`cache_when` alone — `spec_hash` re-encodes the definition with both
fields replaced by `""`, and the dep collection never reads them. -/
theorem claim_C2_cache_policy_invariant (env : Env) (r : Runnable)
    (c : String) (w : CacheWhen) :
    Runnable.hash env { r with cache := c, cache_when := w } =
      Runnable.hash env r := by
  cases r
  rfl

/-- C7: `should_cache(code)` is true exactly when the `cache_when` policy
admits the exit code: `success` and `code = 0`, `failed` and `code ≠ 0`,
or `finished` (`runnable.py` lines 286-295). -/
theorem claim_C7_should_cache (r : Runnable) (code : Int) :
    r.should_cache code = true ↔
      (r.cache_when = CacheWhen.success ∧ code = 0) ∨
      (r.cache_when = CacheWhen.failed ∧ code ≠ 0) ∨
      r.cache_when = CacheWhen.finished := by
  cases h : r.cache_when <;> simp [Runnable.should_cache, h]

/-- C8: `hash_strs` is permutation-invariant — for every finite list of
strings `xs` and every permutation `ys` of `xs`, `hash_strs xs = hash_strs
ys`; in particular `hash_strs [a,b,c] = hash_strs [c,b,a]` — because the
inputs are sorted before concatenation and digesting.  Holds for every
digest function `H`. -/
theorem claim_C8_hash_strs_perm_invariant
    (H : String → String) (xs ys : List String) (h : xs.Perm ys) :
    Hash.strs H xs = Hash.strs H ys ∧
      ∀ a b c : String, Hash.strs H [a, b, c] = Hash.strs H [c, b, a] := by
  constructor
  · unfold Hash.strs
    rw [pysorted_eq_of_perm h]
  · intro a b c
    unfold Hash.strs
    rw [pysorted_eq_of_perm (List.reverse_perm [a, b, c]).symm]
    rfl

/-- Witness for C8 at a concrete permutation. -/
theorem claim_C8_hash_strs_perm_invariant_witness :
    Hash.strs id ["x", "y"] = Hash.strs id ["y", "x"] :=
  (claim_C8_hash_strs_perm_invariant id ["x", "y"] ["y", "x"]
    (by decide)).1

/-! ## Manifests and their JSON codec (`qik/cache.py` lines 25-35)

`Manifest` is a msgspec struct with `omit_defaults=True`.  We model JSON
documents as a value tree and the msgspec decoder specialized to
`Manifest`: required fields must be present with the declared type,
optional fields default, and — msgspec's default behaviour — unknown
fields are skipped.  (Duplicate keys are not modeled; lookups take the
first binding.) -/

/-- A JSON document. -/
inductive JVal
  | null
  | bool (b : Bool)
  | num (n : Int)
  | str (s : String)
  | arr (xs : List JVal)
  | obj (kvs : List (String × JVal))

/-- `qik.cache.Manifest`. -/
structure Manifest where
  name : String
  hash : String
  code : Int
  log : Option String := none
  artifacts : List String := []
  deriving DecidableEq, Repr

/-- `qik.cache.Entry`. -/
structure Entry where
  manifest : Manifest
  log : Option String := none
  deriving DecidableEq, Repr

/-- `qik.runnable.Result` (`runnable.py` lines 192-199). -/
structure Result where
  log : Option String
  code : Int
  hash : String
  deriving DecidableEq, Repr

/-- `Result.from_cache(entry)`. -/
def Result.from_cache (entry : Entry) : Result :=
  ⟨entry.log, entry.manifest.code, entry.manifest.hash⟩

def jLookup (kvs : List (String × JVal)) (k : String) : Option JVal :=
  List.lookup k kvs

/-- A required `str` field. -/
def reqStr (kvs : List (String × JVal)) (k : String) : Except String String :=
  match jLookup kvs k with
  | some (JVal.str s) => Except.ok s
  | some _ => Except.error ("Expected str - at $." ++ k)
  | none => Except.error ("Object missing required field " ++ k)

/-- A required `int` field. -/
def reqInt (kvs : List (String × JVal)) (k : String) : Except String Int :=
  match jLookup kvs k with
  | some (JVal.num n) => Except.ok n
  | some _ => Except.error ("Expected int - at $." ++ k)
  | none => Except.error ("Object missing required field " ++ k)

/-- An optional `str | None` field with default `None`. -/
def optStrField (kvs : List (String × JVal)) (k : String) :
    Except String (Option String) :=
  match jLookup kvs k with
  | none => Except.ok none
  | some JVal.null => Except.ok none
  | some (JVal.str s) => Except.ok (some s)
  | some _ => Except.error ("Expected str or null - at $." ++ k)

def strList : List JVal → Except String (List String)
  | [] => Except.ok []
  | JVal.str s :: t => (strList t).map (fun ys => s :: ys)
  | _ :: _ => Except.error "Expected str - at $.artifacts"

/-- An optional `list[str]` field with default `[]`. -/
def optStrListField (kvs : List (String × JVal)) (k : String) :
    Except String (List String) :=
  match jLookup kvs k with
  | none => Except.ok []
  | some (JVal.arr xs) => strList xs
  | some _ => Except.error ("Expected array - at $." ++ k)

/-- `msgspec.json.decode(…, type=Manifest)`: requires `name`, `hash`,
`code` with the declared types, defaults `log` and `artifacts`, and
ignores unknown fields (msgspec's default). -/
def decodeManifest : JVal → Except String Manifest
  | JVal.obj kvs => do
    let name ← reqStr kvs "name"
    let hash ← reqStr kvs "hash"
    let code ← reqInt kvs "code"
    let log ← optStrField kvs "log"
    let artifacts ← optStrListField kvs "artifacts"
    pure ⟨name, hash, code, log, artifacts⟩
  | _ => Except.error "Expected object"

/-- `msgspec.json.encode` of a `Manifest` (`omit_defaults=True`: `log`
omitted when `None`, `artifacts` omitted when empty). -/
def encodeManifest (m : Manifest) : JVal :=
  JVal.obj
    ([("name", JVal.str m.name), ("hash", JVal.str m.hash),
      ("code", JVal.num m.code)]
      ++ (match m.log with
          | some l => [("log", JVal.str l)]
          | none => [])
      ++ (if m.artifacts.isEmpty then []
          else [("artifacts", JVal.arr (m.artifacts.map JVal.str))]))

theorem strList_map_str (xs : List String) :
    strList (xs.map JVal.str) = Except.ok xs := by
  induction xs with
  | nil => rfl
  | cons a t ih =>
    simp only [List.map_cons, strList, ih]
    rfl

/-- Decoding inverts encoding. -/
theorem decode_encodeManifest (m : Manifest) :
    decodeManifest (encodeManifest m) = Except.ok m := by
  obtain ⟨name, hash, code, log, artifacts⟩ := m
  cases log with
  | none =>
    cases artifacts with
    | nil => rfl
    | cons a t =>
      have hs : strList (JVal.str a :: List.map JVal.str t) = Except.ok (a :: t) :=
        strList_map_str (a :: t)
      simp [decodeManifest, encodeManifest, reqStr, reqInt, optStrField,
        optStrListField, jLookup, List.lookup, hs]
      rfl
  | some l =>
    cases artifacts with
    | nil => rfl
    | cons a t =>
      have hs : strList (JVal.str a :: List.map JVal.str t) = Except.ok (a :: t) :=
        strList_map_str (a :: t)
      simp [decodeManifest, encodeManifest, reqStr, reqInt, optStrField,
        optStrListField, jLookup, List.lookup, hs]
      rfl

theorem exceptBind_ok {ε α β : Type} {a : Except ε α} {f : α → Except ε β}
    {b : β} : (a >>= f) = Except.ok b ↔ ∃ x, a = Except.ok x ∧ f x = Except.ok b := by
  cases a with
  | ok x => simp [Bind.bind, Except.bind]
  | error e => simp [Bind.bind, Except.bind]

theorem reqStr_isOk_iff (kvs : List (String × JVal)) (k : String) :
    (∃ s, reqStr kvs k = Except.ok s ∧ jLookup kvs k = some (JVal.str s)) ∨
      ((∃ e, reqStr kvs k = Except.error e) ∧
        ∀ s, jLookup kvs k ≠ some (JVal.str s)) := by
  cases hl : jLookup kvs k with
  | none => exact Or.inr ⟨⟨_, by unfold reqStr; rw [hl]⟩, by simp⟩
  | some v =>
    cases v with
    | str s => exact Or.inl ⟨s, by unfold reqStr; rw [hl], rfl⟩
    | null => exact Or.inr ⟨⟨_, by unfold reqStr; rw [hl]⟩, by simp⟩
    | bool b => exact Or.inr ⟨⟨_, by unfold reqStr; rw [hl]⟩, by simp⟩
    | num n => exact Or.inr ⟨⟨_, by unfold reqStr; rw [hl]⟩, by simp⟩
    | arr xs => exact Or.inr ⟨⟨_, by unfold reqStr; rw [hl]⟩, by simp⟩
    | obj kvs2 => exact Or.inr ⟨⟨_, by unfold reqStr; rw [hl]⟩, by simp⟩

theorem reqInt_isOk_iff (kvs : List (String × JVal)) (k : String) :
    (∃ n, reqInt kvs k = Except.ok n ∧ jLookup kvs k = some (JVal.num n)) ∨
      ((∃ e, reqInt kvs k = Except.error e) ∧
        ∀ n, jLookup kvs k ≠ some (JVal.num n)) := by
  cases hl : jLookup kvs k with
  | none => exact Or.inr ⟨⟨_, by unfold reqInt; rw [hl]⟩, by simp⟩
  | some v =>
    cases v with
    | num n => exact Or.inl ⟨n, by unfold reqInt; rw [hl], rfl⟩
    | null => exact Or.inr ⟨⟨_, by unfold reqInt; rw [hl]⟩, by simp⟩
    | bool b => exact Or.inr ⟨⟨_, by unfold reqInt; rw [hl]⟩, by simp⟩
    | str s => exact Or.inr ⟨⟨_, by unfold reqInt; rw [hl]⟩, by simp⟩
    | arr xs => exact Or.inr ⟨⟨_, by unfold reqInt; rw [hl]⟩, by simp⟩
    | obj kvs2 => exact Or.inr ⟨⟨_, by unfold reqInt; rw [hl]⟩, by simp⟩

theorem optStrField_isOk_iff (kvs : List (String × JVal)) (k : String) :
    (∃ o, optStrField kvs k = Except.ok o) ↔
      (jLookup kvs k = none ∨ jLookup kvs k = some JVal.null ∨
        ∃ s, jLookup kvs k = some (JVal.str s)) := by
  cases hl : jLookup kvs k with
  | none => simp [optStrField, hl]
  | some v => cases v <;> simp [optStrField, hl]

theorem strList_ok_iff (xs : List JVal) :
    (∃ ys, strList xs = Except.ok ys) ↔ ∀ x ∈ xs, ∃ s, x = JVal.str s := by
  induction xs with
  | nil => simp [strList]
  | cons a t ih =>
    cases a with
    | str s =>
      simp only [strList]
      cases hst : strList t with
      | error e =>
        constructor
        · rintro ⟨ys, hys⟩
          simp [Except.map] at hys
        · intro h
          obtain ⟨ys, hys⟩ := ih.2 (fun x hx => h x (List.mem_cons_of_mem _ hx))
          rw [hys] at hst
          cases hst
      | ok ys =>
        constructor
        · intro _ x hx
          rcases List.mem_cons.1 hx with h | h
          · exact ⟨s, h⟩
          · exact (ih.1 ⟨ys, hst⟩) x h
        · intro _
          exact ⟨s :: ys, rfl⟩
    | null =>
      simp only [strList]
      constructor
      · rintro ⟨ys, hys⟩
        cases hys
      · intro h
        obtain ⟨s, hs⟩ := h JVal.null (List.mem_cons_self _ _)
        cases hs
    | bool b =>
      simp only [strList]
      constructor
      · rintro ⟨ys, hys⟩
        cases hys
      · intro h
        obtain ⟨s, hs⟩ := h (JVal.bool b) (List.mem_cons_self _ _)
        cases hs
    | num n =>
      simp only [strList]
      constructor
      · rintro ⟨ys, hys⟩
        cases hys
      · intro h
        obtain ⟨s, hs⟩ := h (JVal.num n) (List.mem_cons_self _ _)
        cases hs
    | arr l =>
      simp only [strList]
      constructor
      · rintro ⟨ys, hys⟩
        cases hys
      · intro h
        obtain ⟨s, hs⟩ := h (JVal.arr l) (List.mem_cons_self _ _)
        cases hs
    | obj l =>
      simp only [strList]
      constructor
      · rintro ⟨ys, hys⟩
        cases hys
      · intro h
        obtain ⟨s, hs⟩ := h (JVal.obj l) (List.mem_cons_self _ _)
        cases hs

theorem optStrListField_isOk_iff (kvs : List (String × JVal)) (k : String) :
    (∃ ys, optStrListField kvs k = Except.ok ys) ↔
      (jLookup kvs k = none ∨
        ∃ xs, jLookup kvs k = some (JVal.arr xs) ∧
          ∀ x ∈ xs, ∃ s, x = JVal.str s) := by
  cases hl : jLookup kvs k with
  | none => simp [optStrListField, hl]
  | some v =>
    cases v with
    | arr xs =>
      simp only [optStrListField, hl]
      rw [strList_ok_iff]
      constructor
      · intro h
        exact Or.inr ⟨xs, rfl, h⟩
      · rintro (h | ⟨xs2, hxs, h⟩)
        · cases h
        · injection hxs with h2
          injection h2 with h3
          exact h3 ▸ h
    | null => simp [optStrListField, hl]
    | bool b => simp [optStrListField, hl]
    | num n => simp [optStrListField, hl]
    | str s => simp [optStrListField, hl]
    | obj kvs2 => simp [optStrListField, hl]

/-- C9 counterexample: an object carrying the unknown field `extra`
decodes successfully (msgspec ignores unknown fields by default;
`Manifest` does not set `forbid_unknown_fields`), contradicting the claim
that decoding fails on any object with a field outside
`{name, hash, code, log, artifacts}`. -/
theorem claim_C9_counterexample :
    decodeManifest (JVal.obj
      [("name", JVal.str "lint"), ("hash", JVal.str "abc123"),
        ("code", JVal.num 0), ("extra", JVal.num 1)]) =
      Except.ok ⟨"lint", "abc123", 0, none, []⟩ := rfl

/-- C9 (amended): decoding a persisted manifest accepts exactly the JSON
objects that provide `name` and `hash` as strings and `code` as an
integer, with `log` absent, null or a string and `artifacts` absent or an
array of strings; unknown fields are ignored (msgspec default), not
forbidden. -/
theorem claim_C9_manifest_decode_shape (j : JVal) :
    (∃ m, decodeManifest j = Except.ok m) ↔
      ∃ kvs, j = JVal.obj kvs ∧
        ((∃ s, jLookup kvs "name" = some (JVal.str s)) ∧
        (∃ s, jLookup kvs "hash" = some (JVal.str s)) ∧
        (∃ n, jLookup kvs "code" = some (JVal.num n)) ∧
        (jLookup kvs "log" = none ∨ jLookup kvs "log" = some JVal.null ∨
          ∃ s, jLookup kvs "log" = some (JVal.str s)) ∧
        (jLookup kvs "artifacts" = none ∨
          ∃ xs, jLookup kvs "artifacts" = some (JVal.arr xs) ∧
            ∀ x ∈ xs, ∃ s, x = JVal.str s)) := by
  cases j with
  | obj kvs =>
    simp only [JVal.obj.injEq, exists_eq_left']
    constructor
    · rintro ⟨m, hm⟩
      simp only [decodeManifest] at hm
      rw [exceptBind_ok] at hm
      obtain ⟨s1, h1, hm⟩ := hm
      rw [exceptBind_ok] at hm
      obtain ⟨s2, h2, hm⟩ := hm
      rw [exceptBind_ok] at hm
      obtain ⟨n3, h3, hm⟩ := hm
      rw [exceptBind_ok] at hm
      obtain ⟨o4, h4, hm⟩ := hm
      rw [exceptBind_ok] at hm
      obtain ⟨ys5, h5, _⟩ := hm
      refine ⟨?_, ?_, ?_, ?_, ?_⟩
      · rcases reqStr_isOk_iff kvs "name" with ⟨s, _, hl⟩ | ⟨⟨e, he⟩, _⟩
        · exact ⟨s, hl⟩
        · rw [he] at h1
          cases h1
      · rcases reqStr_isOk_iff kvs "hash" with ⟨s, _, hl⟩ | ⟨⟨e, he⟩, _⟩
        · exact ⟨s, hl⟩
        · rw [he] at h2
          cases h2
      · rcases reqInt_isOk_iff kvs "code" with ⟨n, _, hl⟩ | ⟨⟨e, he⟩, _⟩
        · exact ⟨n, hl⟩
        · rw [he] at h3
          cases h3
      · exact (optStrField_isOk_iff kvs "log").1 ⟨o4, h4⟩
      · exact (optStrListField_isOk_iff kvs "artifacts").1 ⟨ys5, h5⟩
    · rintro ⟨⟨s1, h1⟩, ⟨s2, h2⟩, ⟨n3, h3⟩, h4, h5⟩
      obtain ⟨o4, ho4⟩ := (optStrField_isOk_iff kvs "log").2 h4
      obtain ⟨ys5, hy5⟩ := (optStrListField_isOk_iff kvs "artifacts").2 h5
      refine ⟨⟨s1, s2, n3, o4, ys5⟩, ?_⟩
      simp only [decodeManifest]
      rw [exceptBind_ok]
      refine ⟨s1, by unfold reqStr; rw [h1], ?_⟩
      rw [exceptBind_ok]
      refine ⟨s2, by unfold reqStr; rw [h2], ?_⟩
      rw [exceptBind_ok]
      refine ⟨n3, by unfold reqInt; rw [h3], ?_⟩
      rw [exceptBind_ok]
      refine ⟨o4, ho4, ?_⟩
      rw [exceptBind_ok]
      exact ⟨ys5, hy5, rfl⟩
  | null => simp [decodeManifest]
  | bool b => simp [decodeManifest]
  | num n => simp [decodeManifest]
  | str s => simp [decodeManifest]
  | arr xs => simp [decodeManifest]

/-! ## URL-safe base64 and UTF-8 (`qik.cache._artifact_name`)

`_artifact_name(path)` is
`f"artifact-{base64.urlsafe_b64encode(str(path).encode()).decode()}"`: the
path's UTF-8 bytes, base64-encoded over the URL-safe alphabet.  Both
codecs are embedded together with decoders proving their injectivity,
which makes cache-internal artifact names collision-free. -/

def b64alphabet : List Char :=
  "ABCDEFGHIJKLMNOPQRSTUVWXYZabcdefghijklmnopqrstuvwxyz0123456789-_".data

def padChar : Char := Char.ofNat 61

def b64char (n : Nat) : Char := b64alphabet.getD n (Char.ofNat 65)

def sextet (c : Char) : Option Nat := List.findIdx? (fun a => a = c) b64alphabet

/-- Chunk-wise urlsafe base64 of a byte list, with padding. -/
def b64encodeChunks : List Nat → List Char
  | [] => []
  | [b0] => [b64char (b0 / 4), b64char (b0 % 4 * 16), padChar, padChar]
  | [b0, b1] =>
    [b64char (b0 / 4), b64char (b0 % 4 * 16 + b1 / 16), b64char (b1 % 16 * 4), padChar]
  | b0 :: b1 :: b2 :: rest =>
    b64char (b0 / 4) :: b64char (b0 % 4 * 16 + b1 / 16) ::
      b64char (b1 % 16 * 4 + b2 / 64) :: b64char (b2 % 64) :: b64encodeChunks rest

/-- Chunk-wise base64 decoding; inverse of `b64encodeChunks` on bytes. -/
def b64decodeChunks : List Char → Option (List Nat)
  | [] => some []
  | c0 :: c1 :: c2 :: c3 :: rest =>
    if c2 = padChar then
      if rest = [] ∧ c3 = padChar then
        match sextet c0, sextet c1 with
        | some s0, some s1 => some [s0 * 4 + s1 / 16]
        | _, _ => none
      else none
    else if c3 = padChar then
      if rest = [] then
        match sextet c0, sextet c1, sextet c2 with
        | some s0, some s1, some s2 =>
          some [s0 * 4 + s1 / 16, s1 % 16 * 16 + s2 / 4]
        | _, _, _ => none
      else none
    else
      match sextet c0, sextet c1, sextet c2, sextet c3, b64decodeChunks rest with
      | some s0, some s1, some s2, some s3, some tl =>
        some ((s0 * 4 + s1 / 16) :: (s1 % 16 * 16 + s2 / 4) ::
          (s2 % 4 * 64 + s3) :: tl)
      | _, _, _, _, _ => none
  | _ => none

theorem sextet_b64char : ∀ n, n < 64 → sextet (b64char n) = some n := by decide

theorem b64char_ne_pad : ∀ n, n < 64 → b64char n ≠ padChar := by decide

theorem b64decodeChunks_cons (c0 c1 c2 c3 : Char) (rest : List Char) :
    b64decodeChunks (c0 :: c1 :: c2 :: c3 :: rest) =
      if c2 = padChar then
        if rest = [] ∧ c3 = padChar then
          match sextet c0, sextet c1 with
          | some s0, some s1 => some [s0 * 4 + s1 / 16]
          | _, _ => none
        else none
      else if c3 = padChar then
        if rest = [] then
          match sextet c0, sextet c1, sextet c2 with
          | some s0, some s1, some s2 =>
            some [s0 * 4 + s1 / 16, s1 % 16 * 16 + s2 / 4]
          | _, _, _ => none
        else none
      else
        match sextet c0, sextet c1, sextet c2, sextet c3, b64decodeChunks rest with
        | some s0, some s1, some s2, some s3, some tl =>
          some ((s0 * 4 + s1 / 16) :: (s1 % 16 * 16 + s2 / 4) ::
            (s2 % 4 * 64 + s3) :: tl)
        | _, _, _, _, _ => none := rfl

theorem b64decode_encode :
    ∀ (bs : List Nat), (∀ b ∈ bs, b < 256) →
      b64decodeChunks (b64encodeChunks bs) = some bs
  | [], _ => rfl
  | [b0], h => by
    have h0 : b0 < 256 := h b0 (by simp)
    rw [show b64encodeChunks [b0] =
      [b64char (b0 / 4), b64char (b0 % 4 * 16), padChar, padChar] from rfl]
    rw [b64decodeChunks_cons, if_pos rfl, if_pos ⟨rfl, rfl⟩]
    rw [sextet_b64char _ (by omega), sextet_b64char _ (by omega)]
    simp only [Option.some.injEq, List.cons.injEq, and_true]
    omega
  | [b0, b1], h => by
    have h0 : b0 < 256 := h b0 (by simp)
    have h1 : b1 < 256 := h b1 (by simp)
    rw [show b64encodeChunks [b0, b1] =
      [b64char (b0 / 4), b64char (b0 % 4 * 16 + b1 / 16),
        b64char (b1 % 16 * 4), padChar] from rfl]
    rw [b64decodeChunks_cons, if_neg (b64char_ne_pad _ (by omega)), if_pos rfl,
      if_pos rfl]
    rw [sextet_b64char _ (by omega), sextet_b64char _ (by omega),
      sextet_b64char _ (by omega)]
    simp only [Option.some.injEq, List.cons.injEq, and_true]
    omega
  | b0 :: b1 :: b2 :: b3 :: rest, h => by
    have h0 : b0 < 256 := h b0 (by simp)
    have h1 : b1 < 256 := h b1 (by simp)
    have h2 : b2 < 256 := h b2 (by simp)
    have hrest : ∀ b ∈ b3 :: rest, b < 256 := fun b hb =>
      h b (List.mem_cons_of_mem b0 (List.mem_cons_of_mem b1
        (List.mem_cons_of_mem b2 hb)))
    have ih := b64decode_encode (b3 :: rest) hrest
    rw [show b64encodeChunks (b0 :: b1 :: b2 :: b3 :: rest) =
      b64char (b0 / 4) :: b64char (b0 % 4 * 16 + b1 / 16) ::
        b64char (b1 % 16 * 4 + b2 / 64) :: b64char (b2 % 64) ::
          b64encodeChunks (b3 :: rest) from rfl]
    rw [b64decodeChunks_cons, if_neg (b64char_ne_pad _ (by omega)),
      if_neg (b64char_ne_pad _ (by omega))]
    rw [sextet_b64char _ (by omega), sextet_b64char _ (by omega),
      sextet_b64char _ (by omega), sextet_b64char _ (by omega), ih]
    simp only [Option.some.injEq, List.cons.injEq, eq_self_iff_true, and_true]
    omega
  | [b0, b1, b2], h => by
    have h0 : b0 < 256 := h b0 (by simp)
    have h1 : b1 < 256 := h b1 (by simp)
    have h2 : b2 < 256 := h b2 (by simp)
    rw [show b64encodeChunks [b0, b1, b2] =
      b64char (b0 / 4) :: b64char (b0 % 4 * 16 + b1 / 16) ::
        b64char (b1 % 16 * 4 + b2 / 64) :: b64char (b2 % 64) ::
          b64encodeChunks [] from rfl]
    rw [b64decodeChunks_cons, if_neg (b64char_ne_pad _ (by omega)),
      if_neg (b64char_ne_pad _ (by omega))]
    rw [sextet_b64char _ (by omega), sextet_b64char _ (by omega),
      sextet_b64char _ (by omega), sextet_b64char _ (by omega)]
    rw [show b64decodeChunks (b64encodeChunks []) = some [] from rfl]
    simp only [Option.some.injEq, List.cons.injEq, and_true]
    omega

/-- UTF-8 bytes of a single code point. -/
def utf8Bytes (c : Nat) : List Nat :=
  if c < 128 then [c]
  else if c < 2048 then [192 + c / 64, 128 + c % 64]
  else if c < 65536 then [224 + c / 4096, 128 + c / 64 % 64, 128 + c % 64]
  else [240 + c / 262144, 128 + c / 4096 % 64, 128 + c / 64 % 64, 128 + c % 64]

/-- UTF-8 decoding, fuel-indexed to keep the recursion structural (one
unit of fuel per decoded code point). -/
def utf8decodeF : Nat → List Nat → Option (List Nat)
  | _, [] => some []
  | 0, _ :: _ => none
  | f + 1, b0 :: rest =>
    if b0 < 128 then (utf8decodeF f rest).map (fun tl => b0 :: tl)
    else if b0 < 192 then none
    else if b0 < 224 then
      match rest with
      | b1 :: rest2 =>
        (utf8decodeF f rest2).map (fun tl => ((b0 - 192) * 64 + (b1 - 128)) :: tl)
      | [] => none
    else if b0 < 240 then
      match rest with
      | b1 :: b2 :: rest2 =>
        (utf8decodeF f rest2).map
          (fun tl => ((b0 - 224) * 4096 + (b1 - 128) * 64 + (b2 - 128)) :: tl)
      | _ => none
    else
      match rest with
      | b1 :: b2 :: b3 :: rest2 =>
        (utf8decodeF f rest2).map
          (fun tl =>
            ((b0 - 240) * 262144 + (b1 - 128) * 4096 + (b2 - 128) * 64 +
              (b3 - 128)) :: tl)
      | _ => none

theorem utf8decodeF_cons (f : Nat) (b0 : Nat) (rest : List Nat) :
    utf8decodeF (f + 1) (b0 :: rest) =
      if b0 < 128 then (utf8decodeF f rest).map (fun tl => b0 :: tl)
      else if b0 < 192 then none
      else if b0 < 224 then
        match rest with
        | b1 :: rest2 =>
          (utf8decodeF f rest2).map
            (fun tl => ((b0 - 192) * 64 + (b1 - 128)) :: tl)
        | [] => none
      else if b0 < 240 then
        match rest with
        | b1 :: b2 :: rest2 =>
          (utf8decodeF f rest2).map
            (fun tl => ((b0 - 224) * 4096 + (b1 - 128) * 64 + (b2 - 128)) :: tl)
        | _ => none
      else
        match rest with
        | b1 :: b2 :: b3 :: rest2 =>
          (utf8decodeF f rest2).map
            (fun tl =>
              ((b0 - 240) * 262144 + (b1 - 128) * 4096 + (b2 - 128) * 64 +
                (b3 - 128)) :: tl)
        | _ => none := rfl

/-- UTF-8 decoding of a byte list back to code points (a byte list has at
least as many bytes as code points, so its length is enough fuel). -/
def utf8decode (l : List Nat) : Option (List Nat) := utf8decodeF l.length l

theorem utf8Bytes_length_pos (c : Nat) : 0 < (utf8Bytes c).length := by
  unfold utf8Bytes
  by_cases h1 : c < 128
  · rw [if_pos h1]
    simp
  · rw [if_neg h1]
    by_cases h2 : c < 2048
    · rw [if_pos h2]
      simp
    · rw [if_neg h2]
      by_cases h3 : c < 65536
      · rw [if_pos h3]
        simp
      · rw [if_neg h3]
        simp

theorem length_le_flatMap_utf8 (cs : List Nat) :
    cs.length ≤ (cs.flatMap utf8Bytes).length := by
  induction cs with
  | nil => simp
  | cons c t ih =>
    rw [List.flatMap_cons, List.length_append, List.length_cons]
    have := utf8Bytes_length_pos c
    omega

theorem utf8decodeF_encode (cs : List Nat) :
    ∀ fuel, cs.length ≤ fuel → (∀ c ∈ cs, c < 1114112) →
      utf8decodeF fuel (cs.flatMap utf8Bytes) = some cs := by
  induction cs with
  | nil =>
    intro fuel _ _
    cases fuel <;> rfl
  | cons c t ih =>
    intro fuel hf h
    have hc : c < 1114112 := h c (by simp)
    have ht : ∀ x ∈ t, x < 1114112 := fun x hx => h x (by simp [hx])
    cases fuel with
    | zero => simp at hf
    | succ f =>
      have hf2 : t.length ≤ f := by
        rw [List.length_cons] at hf
        omega
      rw [List.flatMap_cons]
      by_cases h1 : c < 128
      · rw [show utf8Bytes c = [c] from by rw [utf8Bytes, if_pos h1]]
        rw [List.cons_append, List.nil_append]
        rw [show utf8decodeF (f + 1) (c :: t.flatMap utf8Bytes) =
          (utf8decodeF f (t.flatMap utf8Bytes)).map (fun tl => c :: tl) from by
            rw [utf8decodeF_cons, if_pos h1]]
        rw [ih f hf2 ht]
        rfl
      · by_cases h2 : c < 2048
        · rw [show utf8Bytes c = [192 + c / 64, 128 + c % 64] from by
            rw [utf8Bytes, if_neg h1, if_pos h2]]
          rw [List.cons_append, List.cons_append, List.nil_append]
          rw [show utf8decodeF (f + 1)
              ((192 + c / 64) :: (128 + c % 64) :: t.flatMap utf8Bytes) =
            (utf8decodeF f (t.flatMap utf8Bytes)).map
              (fun tl => ((192 + c / 64 - 192) * 64 +
                (128 + c % 64 - 128)) :: tl) from by
            rw [utf8decodeF_cons, if_neg (by omega), if_neg (by omega),
              if_pos (by omega)]]
          rw [ih f hf2 ht]
          simp only [Option.map_some', Option.some.injEq, List.cons.injEq,
            eq_self_iff_true, and_true]
          omega
        · by_cases h3 : c < 65536
          · rw [show utf8Bytes c =
                [224 + c / 4096, 128 + c / 64 % 64, 128 + c % 64] from by
              rw [utf8Bytes, if_neg h1, if_neg h2, if_pos h3]]
            rw [List.cons_append, List.cons_append, List.cons_append,
              List.nil_append]
            rw [show utf8decodeF (f + 1)
                ((224 + c / 4096) :: (128 + c / 64 % 64) :: (128 + c % 64) ::
                  t.flatMap utf8Bytes) =
              (utf8decodeF f (t.flatMap utf8Bytes)).map
                (fun tl => ((224 + c / 4096 - 224) * 4096 +
                  (128 + c / 64 % 64 - 128) * 64 +
                  (128 + c % 64 - 128)) :: tl) from by
              rw [utf8decodeF_cons, if_neg (by omega), if_neg (by omega),
                if_neg (by omega), if_pos (by omega)]]
            rw [ih f hf2 ht]
            simp only [Option.map_some', Option.some.injEq, List.cons.injEq,
              eq_self_iff_true, and_true]
            omega
          · rw [show utf8Bytes c =
                [240 + c / 262144, 128 + c / 4096 % 64, 128 + c / 64 % 64,
                  128 + c % 64] from by
              rw [utf8Bytes, if_neg h1, if_neg h2, if_neg h3]]
            rw [List.cons_append, List.cons_append, List.cons_append,
              List.cons_append, List.nil_append]
            rw [show utf8decodeF (f + 1)
                ((240 + c / 262144) :: (128 + c / 4096 % 64) ::
                  (128 + c / 64 % 64) :: (128 + c % 64) ::
                  t.flatMap utf8Bytes) =
              (utf8decodeF f (t.flatMap utf8Bytes)).map
                (fun tl => ((240 + c / 262144 - 240) * 262144 +
                  (128 + c / 4096 % 64 - 128) * 4096 +
                  (128 + c / 64 % 64 - 128) * 64 +
                  (128 + c % 64 - 128)) :: tl) from by
              rw [utf8decodeF_cons, if_neg (by omega), if_neg (by omega),
                if_neg (by omega), if_neg (by omega)]]
            rw [ih f hf2 ht]
            simp only [Option.map_some', Option.some.injEq, List.cons.injEq,
              eq_self_iff_true, and_true]
            omega

theorem utf8decode_encode (cs : List Nat) (h : ∀ c ∈ cs, c < 1114112) :
    utf8decode (cs.flatMap utf8Bytes) = some cs := by
  unfold utf8decode
  exact utf8decodeF_encode cs _ (length_le_flatMap_utf8 cs) h

/-- The UTF-8 bytes of a string (`str.encode()`). -/
def strBytes (s : String) : List Nat :=
  s.data.flatMap (fun ch => utf8Bytes ch.toNat)

theorem charToNat_lt (c : Char) : c.toNat < 1114112 := by
  rcases c.valid with h | ⟨h1, h2⟩
  · exact lt_trans h (by norm_num)
  · exact h2

theorem utf8Bytes_lt {c : Nat} (hc : c < 1114112) : ∀ b ∈ utf8Bytes c, b < 256 := by
  intro b hb
  unfold utf8Bytes at hb
  by_cases h1 : c < 128
  · rw [if_pos h1] at hb
    simp at hb
    omega
  · rw [if_neg h1] at hb
    by_cases h2 : c < 2048
    · rw [if_pos h2] at hb
      simp at hb
      rcases hb with hb | hb <;> omega
    · rw [if_neg h2] at hb
      by_cases h3 : c < 65536
      · rw [if_pos h3] at hb
        simp at hb
        rcases hb with hb | hb | hb <;> omega
      · rw [if_neg h3] at hb
        simp at hb
        rcases hb with hb | hb | hb | hb <;> omega

theorem strBytes_lt (s : String) : ∀ b ∈ strBytes s, b < 256 := by
  intro b hb
  unfold strBytes at hb
  rw [List.mem_flatMap] at hb
  obtain ⟨c, _, hbc⟩ := hb
  exact utf8Bytes_lt (charToNat_lt c) b hbc

theorem strBytes_injective {s t : String} (h : strBytes s = strBytes t) :
    s = t := by
  have hs := utf8decode_encode (s.data.map Char.toNat)
    (by
      intro c hc
      rw [List.mem_map] at hc
      obtain ⟨ch, _, rfl⟩ := hc
      exact charToNat_lt ch)
  have ht := utf8decode_encode (t.data.map Char.toNat)
    (by
      intro c hc
      rw [List.mem_map] at hc
      obtain ⟨ch, _, rfl⟩ := hc
      exact charToNat_lt ch)
  rw [List.flatMap_map] at hs ht
  unfold strBytes at h
  rw [h] at hs
  rw [hs] at ht
  injection ht with ht2
  have hdata : s.data = t.data := by
    refine List.map_injective_iff.2 ?_ ht2
    intro c1 c2 hc
    exact Char.ext (UInt32.ext hc)
  cases s with
  | mk d1 =>
    cases t with
    | mk d2 => exact congrArg String.mk hdata

/-- `qik.cache._artifact_name`. -/
def artifactName (path : String) : String :=
  "artifact-" ++ String.mk (b64encodeChunks (strBytes path))

theorem b64encodeChunks_injective {a b : List Nat}
    (ha : ∀ x ∈ a, x < 256) (hb : ∀ x ∈ b, x < 256)
    (h : b64encodeChunks a = b64encodeChunks b) : a = b := by
  have h1 := b64decode_encode a ha
  have h2 := b64decode_encode b hb
  rw [h] at h1
  rw [h1] at h2
  injection h2

theorem artifactName_injective {a b : String}
    (h : artifactName a = artifactName b) : a = b := by
  unfold artifactName at h
  have hdata := congrArg String.data h
  rw [String.data_append, String.data_append] at hdata
  have h2 : (String.mk (b64encodeChunks (strBytes a))).data =
      (String.mk (b64encodeChunks (strBytes b))).data :=
    List.append_cancel_left hdata
  have h3 : b64encodeChunks (strBytes a) = b64encodeChunks (strBytes b) := h2
  exact strBytes_injective
    (b64encodeChunks_injective (strBytes_lt a) (strBytes_lt b) h3)

/-! ## File-system state and the cache protocol (`qik/cache.py`)

The on-disk state is an association list from paths to file contents; a
file is either text or a JSON document (`msgspec.json.encode` output).
`qik.file.write` is insert-or-update, `qik.file.copy` reads the source
and writes the destination (raising `FileNotFoundError`, modeled as
`none`, when the source is absent). -/

/-- File contents: text or an encoded JSON document. -/
inductive FData
  | text (s : String)
  | jdoc (j : JVal)

/-- The file system. -/
def FS : Type := List (String × FData)

/-- First-match association lookup (paths are unique keys under
`dictUpsert`). -/
def alookup {α : Type} : List (String × α) → String → Option α
  | [], _ => none
  | (k, v) :: t, q => if k = q then some v else alookup t q

theorem alookup_upsert {α : Type} (fs : List (String × α)) (k : String)
    (v : α) (q : String) :
    alookup (dictUpsert fs k v) q = if q = k then some v else alookup fs q := by
  induction fs with
  | nil =>
    simp only [dictUpsert, alookup]
    by_cases h : q = k
    · rw [if_pos h.symm, if_pos h]
    · rw [if_neg (fun hk => h hk.symm), if_neg h]
  | cons p t ih =>
    obtain ⟨k2, v2⟩ := p
    simp only [dictUpsert]
    by_cases h1 : k2 = k
    · rw [if_pos h1]
      simp only [alookup]
      by_cases h2 : q = k
      · rw [if_pos h2.symm, if_pos h2]
      · rw [if_neg (fun hk => h2 hk.symm), if_neg h2, if_neg (by
          rw [h1]
          exact fun hk => h2 hk.symm)]
    · rw [if_neg h1]
      simp only [alookup]
      by_cases h2 : k2 = q
      · rw [if_pos h2, if_neg (fun hqk => h1 (h2.trans hqk)), if_pos h2]
      · rw [if_neg h2, if_neg h2, ih]

/-- `qik.file.copy` for each `(src, dst)` pair in order; `none` models a
`FileNotFoundError` on a missing source. -/
def copyAll : List (String × String) → FS → Option FS
  | [], fs => some fs
  | (src, dst) :: t, fs =>
    match alookup fs src with
    | none => none
    | some v => copyAll t (dictUpsert fs dst v)

/-- Specification of `copyAll`: when no destination clobbers any source,
every copy succeeds, paths outside the destinations are untouched, and
each destination ends up with its source's (initial) content — provided
that pairs sharing a destination copy identical content. -/
theorem copyAll_spec (pairs : List (String × String)) (fs : FS)
    (hsrc : ∀ p ∈ pairs, (alookup fs p.1).isSome)
    (hsd : ∀ p ∈ pairs, ∀ q ∈ pairs, q.2 ≠ p.1) :
    ∃ fs2, copyAll pairs fs = some fs2 ∧
      (∀ x, (∀ p ∈ pairs, x ≠ p.2) → alookup fs2 x = alookup fs x) ∧
      (∀ p ∈ pairs,
        (∀ q ∈ pairs, q.2 = p.2 → alookup fs q.1 = alookup fs p.1) →
        alookup fs2 p.2 = alookup fs p.1) := by
  induction pairs generalizing fs with
  | nil => exact ⟨fs, rfl, fun x _ => rfl, fun p hp => absurd hp (List.not_mem_nil p)⟩
  | cons pr t ih =>
    obtain ⟨src, dst⟩ := pr
    have hsrc0 : (alookup fs src).isSome :=
      hsrc (src, dst) (List.mem_cons_self _ _)
    obtain ⟨v, hv⟩ := Option.isSome_iff_exists.1 hsrc0
    have hfs1 : ∀ q : String, q ≠ dst →
        alookup (dictUpsert fs dst v) q = alookup fs q := by
      intro q hq
      rw [alookup_upsert, if_neg hq]
    have hsrc1 : ∀ p ∈ t, (alookup (dictUpsert fs dst v) p.1).isSome := by
      intro p hp
      rw [hfs1 p.1 (by
        intro hEq
        exact hsd p (List.mem_cons_of_mem _ hp) (src, dst)
          (List.mem_cons_self _ _) hEq.symm)]
      exact hsrc p (List.mem_cons_of_mem _ hp)
    have hsd1 : ∀ p ∈ t, ∀ q ∈ t, q.2 ≠ p.1 := fun p hp q hq =>
      hsd p (List.mem_cons_of_mem _ hp) q (List.mem_cons_of_mem _ hq)
    obtain ⟨fs2, hrun, hframe, hdst⟩ := ih (dictUpsert fs dst v) hsrc1 hsd1
    have hsame : ∀ p ∈ t, alookup (dictUpsert fs dst v) p.1 = alookup fs p.1 := by
      intro p hp
      exact hfs1 p.1 (by
        intro hEq
        exact hsd p (List.mem_cons_of_mem _ hp) (src, dst)
          (List.mem_cons_self _ _) hEq.symm)
    refine ⟨fs2, ?_, ?_, ?_⟩
    · simp only [copyAll, hv]
      exact hrun
    · intro x hx
      rw [hframe x (fun p hp => hx p (List.mem_cons_of_mem _ hp))]
      rw [hfs1 x (hx (src, dst) (List.mem_cons_self _ _))]
    · intro p hp hcontent
      rcases List.mem_cons.1 hp with hEq | hpt
      · subst hEq
        simp only at *
        by_cases hmem : ∃ q ∈ t, q.2 = dst
        · obtain ⟨q, hqt, hqd⟩ := hmem
          have h0 := hdst q hqt (by
            intro q2 hq2 hq2d
            rw [hsame q2 hq2, hsame q hqt]
            exact (hcontent q2 (List.mem_cons_of_mem _ hq2)
              (hq2d.trans hqd)).trans
              (hcontent q (List.mem_cons_of_mem _ hqt) hqd).symm)
          rw [hqd] at h0
          rw [h0, hsame q hqt,
            hcontent q (List.mem_cons_of_mem _ hqt) hqd, hv]
        · push_neg at hmem
          rw [hframe dst (fun q hq => fun hEq => hmem q hq hEq.symm)]
          rw [alookup_upsert, if_pos rfl, hv]
      · rw [hdst p hpt (by
          intro q hq hqd
          rw [hsame q hq, hsame p hpt]
          exact hcontent q (List.mem_cons_of_mem _ hq) hqd)]
        rw [hsame p hpt]

/-! ## Cache backends (`qik/cache.py` lines 48-134, 177-196)

A backend is the base `Cache` contract with its overridable hooks;
`Local` instantiates them with the `.qik`-directory layout and
opaque-name artifact copies.  `Repo`/`S3` hooks act on the git index and
the object store, outside the modeled file system; `Uncached` overrides
`get`/`set` entirely. -/

/-- An error escaping `_get_entry`: a missing file (caught by `get`) or a
`msgspec.DecodeError` (not caught). -/
inductive GetErr
  | fnf
  | decodeErr (msg : String)
  deriving DecidableEq, Repr

/-- The overridable surface of the `Cache` class. -/
structure CacheOps where
  base_path : Runnable → String → String
  pre_get : Runnable → String → FS → FS
  onMiss : Option (Runnable → String → FS → FS)
  get_artifacts : Runnable → String → List String → FS → Except GetErr FS
  set_artifacts : Runnable → String → FS → Option (List String × FS)
  post_set : Runnable → String → Manifest → FS → FS

/-- `manifest_path`. -/
def manifestPath (ops : CacheOps) (r : Runnable) (h : String) : String :=
  ops.base_path r h ++ "/" ++ r.name ++ ".json"

/-- `log_path`. -/
def logPath (ops : CacheOps) (r : Runnable) (h : String) : String :=
  ops.base_path r h ++ "/" ++ r.name ++ ".out"

/-- `_get_entry` inside `Cache.get` (`cache.py` lines 84-91): read and
decode the manifest, treat a hash mismatch as `FileNotFoundError`, read
the log when the manifest names one, restore artifacts. -/
def getEntryOnce (ops : CacheOps) (r : Runnable) (h : String) (fs : FS) :
    Except GetErr (Entry × FS) :=
  match alookup fs (manifestPath ops r h) with
  | none => Except.error GetErr.fnf
  | some (FData.text _) => Except.error (GetErr.decodeErr "manifest is not JSON")
  | some (FData.jdoc j) =>
    match decodeManifest j with
    | Except.error e => Except.error (GetErr.decodeErr e)
    | Except.ok m =>
      if m.hash ≠ h then Except.error GetErr.fnf
      else
        match (match m.log with
          | some l =>
            if l = "" then Except.ok none
            else
              match alookup fs (ops.base_path r h ++ "/" ++ l) with
              | some (FData.text s) => Except.ok (some s)
              | _ => Except.error GetErr.fnf
          | none => Except.ok none) with
        | Except.error e => Except.error e
        | Except.ok log =>
          match ops.get_artifacts r h m.artifacts fs with
          | Except.error e => Except.error e
          | Except.ok fs2 => Except.ok (⟨m, log⟩, fs2)

/-- `Cache.get` (`cache.py` lines 77-104) given the recomputed
fingerprint: `pre_get`, read the entry, on `FileNotFoundError` invoke
`on_miss` (absent `on_miss` raises `NotImplementedError`, caught and
returned as `None`) and retry exactly once; a second `FileNotFoundError`
returns `None`; a `DecodeError` propagates. -/
def cacheGetWithHash (ops : CacheOps) (r : Runnable) (h : String) (fs : FS) :
    Except String (Option Entry × FS) :=
  let fs0 := ops.pre_get r h fs
  match getEntryOnce ops r h fs0 with
  | Except.ok (e, fs2) => Except.ok (some e, fs2)
  | Except.error (GetErr.decodeErr e) => Except.error e
  | Except.error GetErr.fnf =>
    match ops.onMiss with
    | none => Except.ok (none, fs0)
    | some f =>
      let fs2 := f r h fs0
      match getEntryOnce ops r h fs2 with
      | Except.ok (e, fs3) => Except.ok (some e, fs3)
      | Except.error (GetErr.decodeErr e) => Except.error e
      | Except.error GetErr.fnf => Except.ok (none, fs2)

namespace Cache

/-- `Cache.get`: recomputes `hash = runnable.hash()` (a raise there
propagates: outer `none`). -/
def get (env : Env) (ops : CacheOps) (r : Runnable) (fs : FS) :
    Option (Except String (Option Entry × FS)) :=
  (Runnable.hash env r).map (fun h => cacheGetWithHash ops r h fs)

/-- `Cache.set` (`cache.py` lines 106-122): import artifacts, write the
manifest (naming the log only for a truthy log), write the log, call
`post_set`. -/
def set (ops : CacheOps) (r : Runnable) (result : Result) (fs : FS) :
    Option FS :=
  (ops.set_artifacts r result.hash fs).map (fun pair =>
    let manifest : Manifest :=
      ⟨r.name, result.hash, result.code,
        if pyFalsy result.log then none else some (r.name ++ ".out"),
        pair.1⟩
    let fs2 := dictUpsert pair.2 (manifestPath ops r result.hash)
      (FData.jdoc (encodeManifest manifest))
    let fs3 :=
      if pyFalsy result.log then fs2
      else dictUpsert fs2 (logPath ops r result.hash)
        (FData.text (result.log.getD ""))
    ops.post_set r result.hash manifest fs3)

end Cache

/-- `Uncached.get`: always a miss. -/
def Uncached.get (_ : Runnable) : Option Entry := none

/-- `Uncached.set`: a no-op. -/
def Uncached.set (_ : Runnable) (_ : Result) (fs : FS) : FS := fs

/-- `_walk_artifacts`: expand the (deduplicated) artifact globs of a
runnable against the project tree; glob semantics live in the
environment. -/
def walkArtifacts (env : Env) (r : Runnable) (fs : FS) : List String :=
  (dedupFirst r.artifacts).flatMap
    (fun pat => (fs.map Prod.fst).filter (fun p => env.globMatch pat p))

/-- `Local.base_path`: `priv_work_dir / "cache" / f"{name}-{hash}"`. -/
def localBasePath (env : Env) (r : Runnable) (h : String) : String :=
  env.privWorkDir ++ "/cache/" ++ r.name ++ "-" ++ h

/-- The opaque in-cache path of an artifact. -/
def localArtifactPath (env : Env) (r : Runnable) (h : String)
    (artifact : String) : String :=
  localBasePath env r h ++ "/" ++ artifactName artifact

/-- The `Local` backend (`cache.py` lines 177-196): artifacts are copied
to/from the cache dir under their base64-encoded names; no `on_miss`
override (the base raises `NotImplementedError`). -/
def localOps (env : Env) : CacheOps where
  base_path := localBasePath env
  pre_get := fun _ _ fs => fs
  onMiss := none
  get_artifacts := fun r h artifacts fs =>
    match copyAll ((dedupFirst artifacts).map
      (fun a => (localArtifactPath env r h a, a))) fs with
    | some fs2 => Except.ok fs2
    | none => Except.error GetErr.fnf
  set_artifacts := fun r h fs =>
    (copyAll ((walkArtifacts env r fs).map
      (fun a => (a, localArtifactPath env r h a))) fs).map
      (fun fs2 => (walkArtifacts env r fs, fs2))
  post_set := fun _ _ _ fs => fs

/-! ## `get_cache_entry` (`runnable.py` lines 300-304) -/

/-- A Python call-protocol error. -/
inductive PyCallErr
  | typeError
  deriving DecidableEq, Repr

/-- The parameters `Cache.get` accepts besides `self`
(`def get(self, runnable)`, cache.py line 77). -/
def cacheGetParams : List String := ["runnable"]

/-- The keyword arguments `Runnable.get_cache_entry` passes to the
backend's `get` (`.get(self, artifacts=artifacts)`, runnable.py line
302). -/
def getCacheEntryCallKwargs : List String := ["artifacts"]

/-- `Runnable.get_cache_entry`: returns nothing under `--force`;
otherwise calls the backend.  The call passes the keyword argument
`artifacts`, which `Cache.get`'s signature does not accept, so the call
raises `TypeError` whenever it is reached; the entry gating by
`should_cache` sits in the unreachable branch. -/
def Runnable.get_cache_entry (env : Env) (ops : CacheOps) (r : Runnable)
    (force : Bool) (fs : FS) : Except PyCallErr (Option Entry) :=
  if force then Except.ok none
  else if getCacheEntryCallKwargs.all (fun k => cacheGetParams.contains k) then
    Except.ok
      (match Cache.get env ops r fs with
       | some (Except.ok (some e, _)) =>
         if r.should_cache e.manifest.code then some e else none
       | _ => none)
  else Except.error PyCallErr.typeError

/-! ## Claims C5 and C10 -/

/-- C5: given the recomputed fingerprint `h`, `Cache.get` (1) treats a
decodable manifest whose stored hash differs from `h` as absent
(`FileNotFoundError`); and when the first read is a miss it (2) returns
`None` when the backend has no `on_miss` (the base `NotImplementedError`
is caught), (3) invokes `on_miss` and retries exactly once, returning
the entry when the retry succeeds, and (4) returns `None` rather than
raising when the retry also misses. -/
theorem claim_C5_cache_get_retry (ops : CacheOps) (r : Runnable)
    (h : String) (fs : FS) :
    (∀ j m, alookup (ops.pre_get r h fs) (manifestPath ops r h) =
          some (FData.jdoc j) →
        decodeManifest j = Except.ok m → m.hash ≠ h →
        getEntryOnce ops r h (ops.pre_get r h fs) = Except.error GetErr.fnf) ∧
    (getEntryOnce ops r h (ops.pre_get r h fs) = Except.error GetErr.fnf →
      ops.onMiss = none →
      cacheGetWithHash ops r h fs = Except.ok (none, ops.pre_get r h fs)) ∧
    (∀ f e fs2,
      getEntryOnce ops r h (ops.pre_get r h fs) = Except.error GetErr.fnf →
      ops.onMiss = some f →
      getEntryOnce ops r h (f r h (ops.pre_get r h fs)) = Except.ok (e, fs2) →
      cacheGetWithHash ops r h fs = Except.ok (some e, fs2)) ∧
    (∀ f,
      getEntryOnce ops r h (ops.pre_get r h fs) = Except.error GetErr.fnf →
      ops.onMiss = some f →
      getEntryOnce ops r h (f r h (ops.pre_get r h fs)) =
        Except.error GetErr.fnf →
      cacheGetWithHash ops r h fs =
        Except.ok (none, f r h (ops.pre_get r h fs))) := by
  refine ⟨?_, ?_, ?_, ?_⟩
  · intro j m hlook hdec hne
    simp only [getEntryOnce, hlook, hdec]
    rw [if_pos hne]
  · intro h1 h2
    simp only [cacheGetWithHash, h1, h2]
  · intro f e fs2 h1 h2 h3
    simp only [cacheGetWithHash, h1, h2, h3]
  · intro f h1 h2 h3
    simp only [cacheGetWithHash, h1, h2, h3]

/-- The backend used by the C5 witness: local layout plus an `on_miss`
that materializes a manifest (a remote fetch). -/
def opsW : CacheOps :=
  { localOps env0 with
    onMiss := some (fun _ _ fs =>
      dictUpsert fs "._qik/cache/lint-h0/lint.json"
        (FData.jdoc (encodeManifest ⟨"lint", "h0", 0, none, []⟩))) }

/-- Witness for C5: a first miss, an `on_miss` that writes the manifest,
and a successful retry returning the entry. -/
theorem claim_C5_cache_get_retry_witness :
    cacheGetWithHash opsW r0 "h0" [] =
      Except.ok (some ⟨⟨"lint", "h0", 0, none, []⟩, none⟩,
        [("._qik/cache/lint-h0/lint.json",
          FData.jdoc (encodeManifest ⟨"lint", "h0", 0, none, []⟩))]) :=
  (claim_C5_cache_get_retry opsW r0 "h0" []).2.2.1
    (fun _ _ fs =>
      dictUpsert fs "._qik/cache/lint-h0/lint.json"
        (FData.jdoc (encodeManifest ⟨"lint", "h0", 0, none, []⟩)))
    ⟨⟨"lint", "h0", 0, none, []⟩, none⟩
    [("._qik/cache/lint-h0/lint.json",
      FData.jdoc (encodeManifest ⟨"lint", "h0", 0, none, []⟩))]
    rfl rfl rfl

/-- C10 (code bug): with the force flag inactive,
`Runnable.get_cache_entry` always raises `TypeError` instead of
consulting the cache: it passes the keyword argument `artifacts` to the
backend's `get`, but `Cache.get(self, runnable)` (cache.py line 77)
declares no such parameter.  The `should_cache` gating of the stored
entry is unreachable. -/
theorem claim_C10_get_cache_entry_type_error (env : Env) (ops : CacheOps)
    (r : Runnable) (fs : FS) :
    Runnable.get_cache_entry env ops r false fs =
      Except.error PyCallErr.typeError := by
  simp only [Runnable.get_cache_entry, Bool.false_eq_true, if_false]
  rw [if_neg (by decide)]

/-! ## Path arithmetic helpers for the round-trip claim -/

theorem strAppend_right_inj {u v : String} (X : String)
    (h : X ++ u = X ++ v) : u = v := by
  have hd := congrArg String.data h
  rw [String.data_append, String.data_append] at hd
  have h2 := List.append_cancel_left hd
  cases u with
  | mk du =>
    cases v with
    | mk dv => exact congrArg String.mk h2

theorem strAppend_right_ne {u v : String} (X : String) (h : u ≠ v) :
    X ++ u ≠ X ++ v := fun hEq => h (strAppend_right_inj X hEq)

theorem mem_foldl_dedupFirst (l : List String) :
    ∀ acc x, x ∈ l.foldl (fun acc x => if x ∈ acc then acc else acc ++ [x]) acc ↔
      x ∈ acc ∨ x ∈ l := by
  induction l with
  | nil => simp
  | cons a t ih =>
    intro acc x
    simp only [List.foldl_cons]
    by_cases h : a ∈ acc
    · rw [if_pos h, ih]
      constructor
      · rintro (hx | hx)
        · exact Or.inl hx
        · exact Or.inr (List.mem_cons_of_mem a hx)
      · rintro (hx | hx)
        · exact Or.inl hx
        · rcases List.mem_cons.1 hx with rfl | hx
          · exact Or.inl h
          · exact Or.inr hx
    · rw [if_neg h, ih]
      simp only [List.mem_append, List.mem_singleton, List.mem_cons]
      tauto

theorem mem_dedupFirst {l : List String} {x : String} :
    x ∈ dedupFirst l ↔ x ∈ l := by
  unfold dedupFirst
  rw [mem_foldl_dedupFirst]
  simp

theorem alookup_isSome_of_mem_keys {fs : FS} {x : String}
    (h : x ∈ fs.map Prod.fst) : (alookup fs x).isSome := by
  induction fs with
  | nil => simp at h
  | cons p t ih =>
    obtain ⟨k, v⟩ := p
    simp only [alookup]
    by_cases hk : k = x
    · rw [if_pos hk]
      rfl
    · rw [if_neg hk]
      refine ih ?_
      simp only [List.map_cons, List.mem_cons] at h
      rcases h with h | h
      · exact absurd h.symm hk
      · exact h

theorem walkArtifacts_sub {env : Env} {r : Runnable} {fs : FS} {a : String}
    (h : a ∈ walkArtifacts env r fs) : a ∈ fs.map Prod.fst := by
  unfold walkArtifacts at h
  rw [List.mem_flatMap] at h
  obtain ⟨pat, _, hmem⟩ := h
  exact (List.mem_filter.1 hmem).1

theorem b64char_mem (n : Nat) : b64char n ∈ b64alphabet := by
  unfold b64char
  rcases lt_or_ge n b64alphabet.length with h | h
  · rw [List.getD_eq_getElem _ _ h]
    exact List.getElem_mem h
  · rw [List.getD_eq_default _ _ h]
    decide

theorem b64encodeChunks_chars :
    ∀ (bs : List Nat), ∀ c ∈ b64encodeChunks bs,
      c ∈ b64alphabet ∨ c = padChar
  | [], c, hc => absurd hc (List.not_mem_nil c)
  | [b0], c, hc => by
    rcases hc with _ | ⟨_, _ | ⟨_, _ | ⟨_, _ | ⟨_, h⟩⟩⟩⟩
    · exact Or.inl (b64char_mem _)
    · exact Or.inl (b64char_mem _)
    · exact Or.inr rfl
    · exact Or.inr rfl
    · exact absurd (by assumption : c ∈ ([] : List Char)) (List.not_mem_nil c)
  | [b0, b1], c, hc => by
    rcases hc with _ | ⟨_, _ | ⟨_, _ | ⟨_, _ | ⟨_, h⟩⟩⟩⟩
    · exact Or.inl (b64char_mem _)
    · exact Or.inl (b64char_mem _)
    · exact Or.inl (b64char_mem _)
    · exact Or.inr rfl
    · exact absurd (by assumption : c ∈ ([] : List Char)) (List.not_mem_nil c)
  | b0 :: b1 :: b2 :: b3 :: rest, c, hc => by
    rcases hc with _ | ⟨_, _ | ⟨_, _ | ⟨_, _ | ⟨_, h⟩⟩⟩⟩
    · exact Or.inl (b64char_mem _)
    · exact Or.inl (b64char_mem _)
    · exact Or.inl (b64char_mem _)
    · exact Or.inl (b64char_mem _)
    · exact b64encodeChunks_chars (b3 :: rest) c (by assumption)
  | [b0, b1, b2], c, hc => by
    rcases hc with _ | ⟨_, _ | ⟨_, _ | ⟨_, _ | ⟨_, h⟩⟩⟩⟩
    · exact Or.inl (b64char_mem _)
    · exact Or.inl (b64char_mem _)
    · exact Or.inl (b64char_mem _)
    · exact Or.inl (b64char_mem _)
    · exact absurd (by assumption : c ∈ b64encodeChunks ([] : List Nat))
        (by rw [show b64encodeChunks ([] : List Nat) = [] from rfl]
            exact List.not_mem_nil c)

/-- The dot character never occurs in an opaque artifact name. -/
theorem dot_not_mem_artifactName (a : String) :
    Char.ofNat 46 ∉ (artifactName a).data := by
  unfold artifactName
  rw [String.data_append]
  intro h
  rcases List.mem_append.1 h with h | h
  · exact absurd h (by decide)
  · rcases b64encodeChunks_chars (strBytes a) _ h with h2 | h2
    · exact absurd h2 (by decide)
    · exact absurd h2 (by decide)

theorem dot_mem_append_json (X : String) :
    Char.ofNat 46 ∈ (X ++ ".json").data := by
  rw [String.data_append]
  exact List.mem_append.2 (Or.inr (by decide))

theorem dot_mem_append_out (X : String) :
    Char.ofNat 46 ∈ (X ++ ".out").data := by
  rw [String.data_append]
  exact List.mem_append.2 (Or.inr (by decide))

theorem append_json_ne_artifactName (X : String) (a : String) :
    X ++ ".json" ≠ artifactName a := fun h =>
  dot_not_mem_artifactName a (h ▸ dot_mem_append_json X)

theorem append_out_ne_artifactName (X : String) (a : String) :
    X ++ ".out" ≠ artifactName a := fun h =>
  dot_not_mem_artifactName a (h ▸ dot_mem_append_out X)

theorem ne_append_of_not_prefix {base a : String}
    (h : base.data.isPrefixOf a.data = false) (x : String) :
    a ≠ base ++ x := by
  intro hEq
  rw [hEq, String.data_append] at h
  rw [List.isPrefixOf_iff_prefix.2 (List.prefix_append _ _)] at h
  cases h

theorem append_out_ne_empty (X : String) : X ++ ".out" ≠ "" := by
  intro h
  have := congrArg String.data h
  rw [String.data_append] at this
  have hlen := congrArg List.length this
  rw [List.length_append] at hlen
  simp at hlen

/-! ## Claim C3: the local set/get round trip -/

theorem claim_C3_local_roundtrip (env : Env) (r : Runnable)
    (result : Result) (fs : FS)
    (hh : Runnable.hash env r = some result.hash)
    (hlog : result.log ≠ some "")
    (hout : ∀ a ∈ walkArtifacts env r fs,
      (localBasePath env r result.hash).data.isPrefixOf a.data = false) :
    ∃ fs1 e fs2,
      Cache.set (localOps env) r result fs = some fs1 ∧
      Cache.get env (localOps env) r fs1 = some (Except.ok (some e, fs2)) ∧
      e.manifest.code = result.code ∧
      e.manifest.hash = result.hash ∧
      e.log = result.log ∧
      ∀ a ∈ walkArtifacts env r fs, alookup fs2 a = alookup fs a := by
  have hBne : ∀ a ∈ walkArtifacts env r fs, ∀ x : String,
      a ≠ localBasePath env r result.hash ++ x :=
    fun a ha x => ne_append_of_not_prefix (hout a ha) x
  have hApath : ∀ a : String, localArtifactPath env r result.hash a =
      localBasePath env r result.hash ++ ("/" ++ artifactName a) := by
    intro a
    unfold localArtifactPath
    rw [String.append_assoc]
  have hMpath : manifestPath (localOps env) r result.hash =
      localBasePath env r result.hash ++ ("/" ++ (r.name ++ ".json")) := by
    show localBasePath env r result.hash ++ "/" ++ r.name ++ ".json" = _
    rw [String.append_assoc, String.append_assoc]
  have hLpath : logPath (localOps env) r result.hash =
      localBasePath env r result.hash ++ ("/" ++ (r.name ++ ".out")) := by
    show localBasePath env r result.hash ++ "/" ++ r.name ++ ".out" = _
    rw [String.append_assoc, String.append_assoc]
  have hCacheNe : ∀ a ∈ walkArtifacts env r fs, ∀ b : String,
      a ≠ localArtifactPath env r result.hash b := by
    intro a ha b
    rw [hApath b]
    exact hBne a ha _
  have hCacheInj : ∀ a b : String,
      localArtifactPath env r result.hash a =
        localArtifactPath env r result.hash b → a = b := by
    intro a b hEq
    rw [hApath a, hApath b] at hEq
    exact artifactName_injective
      (strAppend_right_inj _ (strAppend_right_inj _ hEq))
  have hML : manifestPath (localOps env) r result.hash ≠
      logPath (localOps env) r result.hash := by
    rw [hMpath, hLpath]
    exact strAppend_right_ne _ (strAppend_right_ne _
      (strAppend_right_ne _ (by decide)))
  have hMA : ∀ a : String, manifestPath (localOps env) r result.hash ≠
      localArtifactPath env r result.hash a := by
    intro a
    rw [hMpath, hApath a]
    refine strAppend_right_ne _ (strAppend_right_ne _ ?_)
    exact append_json_ne_artifactName r.name a
  have hLA : ∀ a : String, logPath (localOps env) r result.hash ≠
      localArtifactPath env r result.hash a := by
    intro a
    rw [hLpath, hApath a]
    refine strAppend_right_ne _ (strAppend_right_ne _ ?_)
    exact append_out_ne_artifactName r.name a
  -- import the artifacts into the cache directory
  obtain ⟨fs1, hrun1, hframe1, hdst1⟩ := copyAll_spec
    ((walkArtifacts env r fs).map
      (fun a => (a, localArtifactPath env r result.hash a))) fs
    (by
      rintro ⟨p1, p2⟩ hp
      rw [List.mem_map] at hp
      obtain ⟨a, ha, hEq⟩ := hp
      injection hEq with h1 h2
      subst h1
      exact alookup_isSome_of_mem_keys (walkArtifacts_sub ha))
    (by
      rintro ⟨p1, p2⟩ hp ⟨q1, q2⟩ hq
      rw [List.mem_map] at hp hq
      obtain ⟨a, ha, hEqp⟩ := hp
      obtain ⟨b, hb, hEqq⟩ := hq
      injection hEqp with hp1 hp2
      injection hEqq with hq1 hq2
      subst hp1
      subst hq2
      exact (hCacheNe a ha b).symm)
  have hCacheLookup1 : ∀ a ∈ walkArtifacts env r fs,
      alookup fs1 (localArtifactPath env r result.hash a) = alookup fs a := by
    intro a ha
    have := hdst1 (a, localArtifactPath env r result.hash a)
      (List.mem_map.2 ⟨a, ha, rfl⟩)
      (by
        rintro ⟨q1, q2⟩ hq hq2
        rw [List.mem_map] at hq
        obtain ⟨b, hb, hEq⟩ := hq
        injection hEq with h1 h2
        subst h1
        simp only at hq2
        rw [← h2] at hq2
        have hba := hCacheInj b a hq2
        subst hba
        rfl)
    exact this
  -- the manifest written by set
  rcases hcl : result.log with _ | l
  case none =>
    refine ⟨dictUpsert fs1 (manifestPath (localOps env) r result.hash)
        (FData.jdoc (encodeManifest
          ⟨r.name, result.hash, result.code, none, walkArtifacts env r fs⟩)),
      ⟨⟨r.name, result.hash, result.code, none, walkArtifacts env r fs⟩, none⟩,
      ?_⟩
    set fs3 : FS := dictUpsert fs1 (manifestPath (localOps env) r result.hash)
      (FData.jdoc (encodeManifest
        ⟨r.name, result.hash, result.code, none, walkArtifacts env r fs⟩))
      with hfs3
    have hm3 : alookup fs3 (manifestPath (localOps env) r result.hash) =
        some (FData.jdoc (encodeManifest
          ⟨r.name, result.hash, result.code, none, walkArtifacts env r fs⟩)) := by
      rw [hfs3, alookup_upsert, if_pos rfl]
    have hframe3 : ∀ P, P ≠ manifestPath (localOps env) r result.hash →
        alookup fs3 P = alookup fs1 P := by
      intro P hP
      rw [hfs3, alookup_upsert, if_neg hP]
    have hc3 : ∀ a ∈ walkArtifacts env r fs,
        alookup fs3 (localArtifactPath env r result.hash a) = alookup fs a := by
      intro a ha
      rw [hframe3 _ (hMA a).symm]
      exact hCacheLookup1 a ha
    -- restore the artifacts from the cache directory
    obtain ⟨fs4, hrun2, hframe2, hdst2⟩ := copyAll_spec
      ((dedupFirst (walkArtifacts env r fs)).map
        (fun a => (localArtifactPath env r result.hash a, a))) fs3
      (by
        rintro ⟨p1, p2⟩ hp
        rw [List.mem_map] at hp
        obtain ⟨a, ha, hEq⟩ := hp
        injection hEq with h1 h2
        subst h1
        rw [hc3 a (mem_dedupFirst.1 ha)]
        exact alookup_isSome_of_mem_keys (walkArtifacts_sub
          (mem_dedupFirst.1 ha)))
      (by
        rintro ⟨p1, p2⟩ hp ⟨q1, q2⟩ hq
        rw [List.mem_map] at hp hq
        obtain ⟨a, ha, hEqp⟩ := hp
        obtain ⟨b, hb, hEqq⟩ := hq
        injection hEqp with hp1 hp2
        injection hEqq with hq1 hq2
        subst hq2
        subst hp1
        exact hCacheNe b (mem_dedupFirst.1 hb) a)
    refine ⟨fs4, ?_, ?_, rfl, rfl, rfl, ?_⟩
    · show Cache.set (localOps env) r result fs = some fs3
      simp only [Cache.set, localOps, hrun1, Option.map_some']
      rw [hcl]
      rfl
    · have hget1 : getEntryOnce (localOps env) r result.hash fs3 =
          Except.ok (⟨⟨r.name, result.hash, result.code, none,
            walkArtifacts env r fs⟩, none⟩, fs4) := by
        simp only [getEntryOnce, hm3, decode_encodeManifest]
        rw [if_neg (fun hne => hne rfl)]
        simp only [localOps]
        rw [hrun2]
      show Cache.get env (localOps env) r fs3 =
        some (Except.ok (some ⟨⟨r.name, result.hash, result.code, none,
          walkArtifacts env r fs⟩, none⟩, fs4))
      simp only [Cache.get, hh, Option.map_some']
      simp only [cacheGetWithHash]
      rw [show (localOps env).pre_get r result.hash fs3 = fs3 from rfl]
      rw [hget1]
    · intro a ha
      have := hdst2 (localArtifactPath env r result.hash a, a)
        (List.mem_map.2 ⟨a, mem_dedupFirst.2 ha, rfl⟩)
        (by
          rintro ⟨q1, q2⟩ hq hq2
          rw [List.mem_map] at hq
          obtain ⟨b, hb, hEq⟩ := hq
          injection hEq with h1 h2
          subst h2
          simp only at hq2
          subst hq2
          subst h1
          rfl)
      simp only at this
      rw [this, hc3 a ha]
  case some =>
    have hl0 : l ≠ "" := fun hEq => hlog (by rw [hcl, hEq])
    have hfalsy : pyFalsy (some l) = false := by
      simp [pyFalsy, hl0]
    refine ⟨dictUpsert
        (dictUpsert fs1 (manifestPath (localOps env) r result.hash)
          (FData.jdoc (encodeManifest
            ⟨r.name, result.hash, result.code, some (r.name ++ ".out"),
              walkArtifacts env r fs⟩)))
        (logPath (localOps env) r result.hash) (FData.text l),
      ⟨⟨r.name, result.hash, result.code, some (r.name ++ ".out"),
        walkArtifacts env r fs⟩, some l⟩, ?_⟩
    set fs3 : FS := dictUpsert
      (dictUpsert fs1 (manifestPath (localOps env) r result.hash)
        (FData.jdoc (encodeManifest
          ⟨r.name, result.hash, result.code, some (r.name ++ ".out"),
            walkArtifacts env r fs⟩)))
      (logPath (localOps env) r result.hash) (FData.text l) with hfs3
    have hm3 : alookup fs3 (manifestPath (localOps env) r result.hash) =
        some (FData.jdoc (encodeManifest
          ⟨r.name, result.hash, result.code, some (r.name ++ ".out"),
            walkArtifacts env r fs⟩)) := by
      rw [hfs3, alookup_upsert, if_neg hML, alookup_upsert, if_pos rfl]
    have hl3 : alookup fs3 (logPath (localOps env) r result.hash) =
        some (FData.text l) := by
      rw [hfs3, alookup_upsert, if_pos rfl]
    have hframe3 : ∀ P, P ≠ manifestPath (localOps env) r result.hash →
        P ≠ logPath (localOps env) r result.hash →
        alookup fs3 P = alookup fs1 P := by
      intro P hP1 hP2
      rw [hfs3, alookup_upsert, if_neg hP2, alookup_upsert, if_neg hP1]
    have hc3 : ∀ a ∈ walkArtifacts env r fs,
        alookup fs3 (localArtifactPath env r result.hash a) = alookup fs a := by
      intro a ha
      rw [hframe3 _ (hMA a).symm (hLA a).symm]
      exact hCacheLookup1 a ha
    obtain ⟨fs4, hrun2, hframe2, hdst2⟩ := copyAll_spec
      ((dedupFirst (walkArtifacts env r fs)).map
        (fun a => (localArtifactPath env r result.hash a, a))) fs3
      (by
        rintro ⟨p1, p2⟩ hp
        rw [List.mem_map] at hp
        obtain ⟨a, ha, hEq⟩ := hp
        injection hEq with h1 h2
        subst h1
        rw [hc3 a (mem_dedupFirst.1 ha)]
        exact alookup_isSome_of_mem_keys (walkArtifacts_sub
          (mem_dedupFirst.1 ha)))
      (by
        rintro ⟨p1, p2⟩ hp ⟨q1, q2⟩ hq
        rw [List.mem_map] at hp hq
        obtain ⟨a, ha, hEqp⟩ := hp
        obtain ⟨b, hb, hEqq⟩ := hq
        injection hEqp with hp1 hp2
        injection hEqq with hq1 hq2
        subst hq2
        subst hp1
        exact hCacheNe b (mem_dedupFirst.1 hb) a)
    refine ⟨fs4, ?_, ?_, rfl, rfl, ?_, ?_⟩
    · show Cache.set (localOps env) r result fs = some fs3
      simp only [Cache.set, localOps, hrun1, Option.map_some']
      rw [hcl]
      simp only [hfalsy, if_false]
      rfl
    · have hpath : (localOps env).base_path r result.hash ++ "/" ++
          (r.name ++ ".out") = logPath (localOps env) r result.hash := by
        show localBasePath env r result.hash ++ "/" ++ (r.name ++ ".out") = _
        rw [hLpath, String.append_assoc]
      have hget1 : getEntryOnce (localOps env) r result.hash fs3 =
          Except.ok (⟨⟨r.name, result.hash, result.code,
            some (r.name ++ ".out"), walkArtifacts env r fs⟩, some l⟩, fs4) := by
        simp only [getEntryOnce, hm3, decode_encodeManifest]
        rw [if_neg (fun hne => hne rfl)]
        rw [if_neg (append_out_ne_empty r.name)]
        rw [hpath, hl3]
        simp only [localOps]
        rw [hrun2]
      show Cache.get env (localOps env) r fs3 =
        some (Except.ok (some ⟨⟨r.name, result.hash, result.code,
          some (r.name ++ ".out"), walkArtifacts env r fs⟩, some l⟩, fs4))
      simp only [Cache.get, hh, Option.map_some']
      simp only [cacheGetWithHash]
      rw [show (localOps env).pre_get r result.hash fs3 = fs3 from rfl]
      rw [hget1]
    · rfl
    · intro a ha
      have := hdst2 (localArtifactPath env r result.hash a, a)
        (List.mem_map.2 ⟨a, mem_dedupFirst.2 ha, rfl⟩)
        (by
          rintro ⟨q1, q2⟩ hq hq2
          rw [List.mem_map] at hq
          obtain ⟨b, hb, hEq⟩ := hq
          injection hEq with h1 h2
          subst h2
          simp only at hq2
          subst hq2
          subst h1
          rfl)
      simp only at this
      rw [this, hc3 a ha]

/-- A concrete runnable with one artifact for the C3 witness. -/
def rC : Runnable :=
  { name := "lint", cmd := "lint", val := "v", cache := "local",
    cache_when := CacheWhen.success, artifacts := ["out.txt"] }

/-- Witness for C3 at a concrete runnable, result and file system. -/
theorem claim_C3_local_roundtrip_witness :
    ∃ fs1 e fs2,
      Cache.set (localOps env0) rC ⟨some "hello", 0, ""⟩ [("out.txt", FData.text "data")] = some fs1 ∧
      Cache.get env0 (localOps env0) rC fs1 = some (Except.ok (some e, fs2)) ∧
      e.manifest.code = (⟨some "hello", 0, ""⟩ : Result).code ∧
      e.manifest.hash = (⟨some "hello", 0, ""⟩ : Result).hash ∧
      e.log = (⟨some "hello", 0, ""⟩ : Result).log ∧
      ∀ a ∈ walkArtifacts env0 rC [("out.txt", FData.text "data")],
        alookup fs2 a = alookup [("out.txt", FData.text "data")] a :=
  claim_C3_local_roundtrip env0 rC ⟨some "hello", 0, ""⟩
    [("out.txt", FData.text "data")] (by decide) (by decide) (by decide)

/-- C3 counterexample: the claim as stated fails for a result whose log
is the empty string.  `Cache.set` stores no log for a falsy
(empty-string) log, so the round trip restores `entry.log = None`, not
the original `Some ""` — restoration of `result.log` is not
byte-identical. -/
theorem claim_C3_counterexample :
    Cache.set (localOps env0) r0 ⟨some "", 0, ""⟩ [] =
      some [(manifestPath (localOps env0) r0 "",
        FData.jdoc (encodeManifest ⟨"lint", "", 0, none, []⟩))] ∧
    Cache.get env0 (localOps env0) r0
        [(manifestPath (localOps env0) r0 "",
          FData.jdoc (encodeManifest ⟨"lint", "", 0, none, []⟩))] =
      some (Except.ok
        (some ⟨⟨"lint", "", 0, none, []⟩, none⟩,
          [(manifestPath (localOps env0) r0 "",
            FData.jdoc (encodeManifest ⟨"lint", "", 0, none, []⟩))])) ∧
    (⟨some "", 0, ""⟩ : Result).log ≠
      (⟨⟨"lint", "", 0, none, []⟩, none⟩ : Entry).log :=
  ⟨rfl, rfl, by decide⟩

/-! ## The DAG scheduler (`qik/runner.py` lines 33-126, 325-336)

`DAGPool._exec` is embedded as a deterministic state machine: one future
completes per iteration, in submission order (a valid FIRST_COMPLETED
schedule; the spec's §5 determinism note makes `workers=1` semantically
equivalent).  `graph.upstream` arrives as an association list from node
name to its (transitively closed, view-filtered) upstream names;
`nodes[name].exec()` is a function `run : String → Result` (worker
exceptions are not modeled — `Runnable._exec` is total on the modeled
outcomes). -/

/-- `self.upstream[name]` (empty for unknown names). -/
def upstreamOf (up : List (String × List String)) (n : String) : List String :=
  (alookup up n).getD []

/-- `self.downstream[name]`, built by inverting the upstream map. -/
def downstreamOf (up : List (String × List String)) (n : String) : List String :=
  (up.filter (fun nd => decide (n ∈ nd.2))).map Prod.fst

/-- Did `U` finish with a zero exit code in `results`? -/
def succRes (res : List (String × Option Result)) (U : String) : Bool :=
  match alookup res U with
  | some (some r) => decide (r.code = 0)
  | _ => false

/-- The scheduler state: `in_degree`, `results`, `failed`, `futures`. -/
structure PoolSt where
  in_degree : List (String × Nat)
  results : List (String × Option Result)
  failed : List String
  futures : List String

/-- `del d[k]` (no-op when absent). -/
def eraseKey {α : Type} (l : List (String × α)) (k : String) :
    List (String × α) :=
  l.filter (fun p => decide (p.1 ≠ k))

/-- `_skip(name)`: drop from `in_degree`, mark failed, record an absent
result. -/
def skipNode (st : PoolSt) (name : String) : PoolSt :=
  { in_degree := eraseKey st.in_degree name,
    results := dictUpsert st.results name none,
    failed := name :: st.failed,
    futures := st.futures }

/-- One iteration of the ready-set loop body: an unsubmitted zero-degree
node is submitted, unless some upstream already failed, in which case it
is skipped. -/
def submitOne (up : List (String × List String)) (st : PoolSt) (n : String) :
    PoolSt :=
  if n ∈ st.futures then st
  else if (upstreamOf up n).any (fun dep => decide (dep ∈ st.failed)) then
    skipNode st n
  else { st with futures := st.futures ++ [n] }

/-- The ready-set loop over every zero-degree node. -/
def submitReady (up : List (String × List String)) (st : PoolSt) : PoolSt :=
  ((st.in_degree.filter (fun p => decide (p.2 = 0))).map Prod.fst).foldl
    (submitOne up) st

/-- `in_degree[dep] -= 1` when present. -/
def decDegree (d : List (String × Nat)) (dep : String) : List (String × Nat) :=
  d.map (fun p => if p.1 = dep then (p.1, p.2 - 1) else p)

/-- `_finish`: record the result; on failure skip every downstream node,
on success decrement each downstream's degree; then remove the node. -/
def finishOne (up : List (String × List String)) (run : String → Result)
    (st : PoolSt) (name : String) (rest : List String) : PoolSt :=
  if (run name).code ≠ 0 then
    let st1 : PoolSt := { st with
      results := dictUpsert st.results name (some (run name)),
      failed := name :: st.failed }
    let st2 := (downstreamOf up name).foldl skipNode st1
    { st2 with in_degree := eraseKey st2.in_degree name, futures := rest }
  else
    let st1 : PoolSt := { st with
      results := dictUpsert st.results name (some (run name)) }
    let st2 : PoolSt := { st1 with
      in_degree := (downstreamOf up name).foldl decDegree st1.in_degree }
    { st2 with in_degree := eraseKey st2.in_degree name, futures := rest }

/-- The `while in_degree:` loop: submit the ready set, break when no
future is in flight, else finish the first-submitted future. -/
def dagLoop (up : List (String × List String)) (run : String → Result) :
    Nat → PoolSt → PoolSt
  | 0, st => st
  | f + 1, st =>
    if st.in_degree.isEmpty then st
    else
      let st1 := submitReady up st
      match st1.futures with
      | [] => st1
      | name :: rest => dagLoop up run f (finishOne up run st1 name rest)

/-- `DAGPool._exec`: run the loop (each iteration finishes or strands at
least one node, so `|upstream| + 1` fuel suffices), then cancel leftover
futures, recording absent results. -/
def dagExec (up : List (String × List String)) (run : String → Result) :
    List (String × Option Result) :=
  let st0 : PoolSt :=
    ⟨up.map (fun nd => (nd.1, nd.2.dedup.length)), [], [], []⟩
  let fin := dagLoop up run (up.length + 1) st0
  fin.futures.foldl (fun res n => dictUpsert res n none) fin.results

/-- `Runner.exec`:
`max((result.code for result in results.values() if result), default=0)`. -/
def runnerExec (up : List (String × List String)) (run : String → Result) :
    Int :=
  match ((dagExec up run).filterMap Prod.snd).map Result.code with
  | [] => 0
  | c :: cs => cs.foldl max c

/-! ## Scheduler state lemmas -/

theorem alookup_eraseKey {α : Type} (l : List (String × α)) (k q : String) :
    alookup (eraseKey l k) q = if q = k then none else alookup l q := by
  induction l with
  | nil => simp [eraseKey, alookup]
  | cons p t ih =>
    obtain ⟨k2, v2⟩ := p
    have hstep : eraseKey ((k2, v2) :: t) k =
        if k2 = k then eraseKey t k else (k2, v2) :: eraseKey t k := by
      by_cases h2 : k2 = k <;> simp [eraseKey, List.filter_cons, h2]
    rw [hstep]
    simp only [alookup]
    by_cases h2 : k2 = k
    · rw [if_pos h2, ih]
      by_cases hq : q = k
      · rw [if_pos hq, if_pos hq]
      · rw [if_neg hq, if_neg hq,
          if_neg (fun hEq : k2 = q => hq (hEq.symm.trans h2))]
    · rw [if_neg h2]
      simp only [alookup]
      by_cases hq2 : k2 = q
      · have hqk : ¬ q = k := fun hq => h2 (hq2.trans hq)
        rw [if_pos hq2, if_neg hqk, if_pos hq2]
      · rw [if_neg hq2, ih]
        by_cases hq : q = k
        · rw [if_pos hq, if_pos hq]
        · rw [if_neg hq, if_neg hq, if_neg hq2]

theorem mem_keys_eraseKey {α : Type} {l : List (String × α)} {k q : String} :
    q ∈ (eraseKey l k).map Prod.fst ↔ q ∈ l.map Prod.fst ∧ q ≠ k := by
  unfold eraseKey
  constructor
  · intro h
    rw [List.mem_map] at h
    obtain ⟨p, hp, rfl⟩ := h
    have := List.mem_filter.1 hp
    refine ⟨List.mem_map.2 ⟨p, this.1, rfl⟩, by simpa using this.2⟩
  · rintro ⟨h1, h2⟩
    rw [List.mem_map] at h1
    obtain ⟨p, hp, rfl⟩ := h1
    exact List.mem_map.2 ⟨p, List.mem_filter.2 ⟨hp, by simpa using h2⟩, rfl⟩

theorem nodup_keys_eraseKey {α : Type} {l : List (String × α)} {k : String}
    (h : (l.map Prod.fst).Nodup) : ((eraseKey l k).map Prod.fst).Nodup := by
  unfold eraseKey
  exact h.sublist (List.Sublist.map Prod.fst (List.filter_sublist l))

theorem alookup_mem {α : Type} {l : List (String × α)} {k : String} {v : α}
    (h : alookup l k = some v) : (k, v) ∈ l := by
  induction l with
  | nil => exact absurd h (by simp [alookup])
  | cons p t ih =>
    obtain ⟨k2, v2⟩ := p
    rw [alookup] at h
    by_cases hk : k2 = k
    · rw [if_pos hk] at h
      exact List.mem_cons.2 (Or.inl (by rw [hk, Option.some.inj h]))
    · rw [if_neg hk] at h
      exact List.mem_cons.2 (Or.inr (ih h))

theorem mem_keys_of_alookup {α : Type} {l : List (String × α)} {k : String}
    {v : α} (h : alookup l k = some v) : k ∈ l.map Prod.fst :=
  List.mem_map.2 ⟨(k, v), alookup_mem h, rfl⟩

theorem alookup_eq_of_mem {α : Type} {l : List (String × α)}
    (hnd : (l.map Prod.fst).Nodup) {p : String × α} (hp : p ∈ l) :
    alookup l p.1 = some p.2 := by
  induction l with
  | nil => cases hp
  | cons q t ih =>
    obtain ⟨k2, v2⟩ := q
    rcases List.mem_cons.1 hp with rfl | hpt
    · rw [alookup, if_pos rfl]
    · rw [alookup]
      have hk : k2 ≠ p.1 := by
        intro hEq
        exact (List.nodup_cons.1 hnd).1
          (hEq ▸ List.mem_map.2 ⟨p, hpt, rfl⟩)
      rw [if_neg hk]
      exact ih (List.nodup_cons.1 hnd).2 hpt

theorem succRes_upsert_ne (res : List (String × Option Result)) (k : String)
    (v : Option Result) {U : String} (h : U ≠ k) :
    succRes (dictUpsert res k v) U = succRes res U := by
  unfold succRes
  rw [alookup_upsert, if_neg h]

theorem succRes_upsert_self_none (res : List (String × Option Result))
    (k : String) : succRes (dictUpsert res k none) k = false := by
  unfold succRes
  rw [alookup_upsert, if_pos rfl]

theorem succRes_upsert_self_some (res : List (String × Option Result))
    (k : String) (r : Result) :
    succRes (dictUpsert res k (some r)) k = decide (r.code = 0) := by
  unfold succRes
  rw [alookup_upsert, if_pos rfl]

theorem succRes_skip_pointwise (res : List (String × Option Result))
    (name : String) (hsucc : succRes res name = false) (U : String) :
    succRes (dictUpsert res name none) U = succRes res U := by
  by_cases hU : U = name
  · subst hU
    rw [succRes_upsert_self_none, hsucc]
  · exact succRes_upsert_ne res name none hU

theorem succRes_none_of_alookup_none {res : List (String × Option Result)}
    {U : String} (h : alookup res U = none) : succRes res U = false := by
  unfold succRes
  rw [h]

theorem decDegree_cons (k2 : String) (v2 : Nat)
    (t : List (String × Nat)) (dep : String) :
    decDegree ((k2, v2) :: t) dep =
      (k2, if k2 = dep then v2 - 1 else v2) :: decDegree t dep := by
  by_cases hk : k2 = dep <;> simp [decDegree, hk]

theorem alookup_decDegree_ne (d : List (String × Nat)) (dep : String)
    {q : String} (h : q ≠ dep) :
    alookup (decDegree d dep) q = alookup d q := by
  induction d with
  | nil => rfl
  | cons p t ih =>
    obtain ⟨k2, v2⟩ := p
    rw [decDegree_cons]
    simp only [alookup]
    by_cases hq : k2 = q
    · rw [if_pos hq, if_pos hq,
        if_neg (fun hk : k2 = dep => h (hq.symm.trans hk))]
    · rw [if_neg hq, if_neg hq, ih]

theorem alookup_decDegree_self (d : List (String × Nat)) (dep : String) :
    alookup (decDegree d dep) dep =
      (alookup d dep).map (fun x => x - 1) := by
  induction d with
  | nil => rfl
  | cons p t ih =>
    obtain ⟨k2, v2⟩ := p
    rw [decDegree_cons]
    simp only [alookup]
    by_cases hq : k2 = dep
    · rw [if_pos hq, if_pos hq, if_pos hq]
      rfl
    · rw [if_neg hq, if_neg hq, ih]

theorem keys_decDegree (d : List (String × Nat)) (dep : String) :
    (decDegree d dep).map Prod.fst = d.map Prod.fst := by
  induction d with
  | nil => rfl
  | cons p t ih =>
    obtain ⟨k2, v2⟩ := p
    rw [decDegree_cons, List.map_cons, List.map_cons, ih]

theorem keys_foldl_decDegree (l : List String) (d : List (String × Nat)) :
    (l.foldl decDegree d).map Prod.fst = d.map Prod.fst := by
  induction l generalizing d with
  | nil => rfl
  | cons x xs ih => rw [List.foldl_cons, ih, keys_decDegree]

theorem alookup_foldl_decDegree_notMem (l : List String)
    (d : List (String × Nat)) {q : String} (h : q ∉ l) :
    alookup (l.foldl decDegree d) q = alookup d q := by
  induction l generalizing d with
  | nil => rfl
  | cons x xs ih =>
    rw [List.foldl_cons, ih _ (fun hq => h (List.mem_cons_of_mem x hq)),
      alookup_decDegree_ne d x
        (fun hq => h (by rw [hq]; exact List.mem_cons_self x xs))]

theorem alookup_foldl_decDegree_mem (l : List String)
    (d : List (String × Nat)) {q : String} (hl : l.Nodup) (h : q ∈ l) :
    alookup (l.foldl decDegree d) q =
      (alookup d q).map (fun x => x - 1) := by
  induction l generalizing d with
  | nil => cases h
  | cons x xs ih =>
    rw [List.foldl_cons]
    rcases List.mem_cons.1 h with rfl | hxs
    · rw [alookup_foldl_decDegree_notMem xs _ (List.nodup_cons.1 hl).1,
        alookup_decDegree_self]
    · rw [ih _ (List.nodup_cons.1 hl).2 hxs]
      by_cases hq : q = x
      · exact absurd (hq ▸ hxs) (List.nodup_cons.1 hl).1
      · rw [alookup_decDegree_ne d x hq]

theorem foldl_skipNode_futures (l : List String) (st : PoolSt) :
    (l.foldl skipNode st).futures = st.futures := by
  induction l generalizing st with
  | nil => rfl
  | cons x xs ih =>
    rw [List.foldl_cons, ih]
    rfl

theorem alookup_foldl_skipNode_results_notMem (l : List String) (st : PoolSt)
    {q : String} (h : q ∉ l) :
    alookup (l.foldl skipNode st).results q = alookup st.results q := by
  induction l generalizing st with
  | nil => rfl
  | cons x xs ih =>
    rw [List.foldl_cons, ih _ (fun hq => h (List.mem_cons_of_mem x hq))]
    show alookup (dictUpsert st.results x none) q = alookup st.results q
    rw [alookup_upsert,
      if_neg (fun hq => h (by rw [hq]; exact List.mem_cons_self x xs))]

theorem alookup_foldl_skipNode_results_mem (l : List String) (st : PoolSt)
    {q : String} (h : q ∈ l) :
    alookup (l.foldl skipNode st).results q = some none := by
  induction l generalizing st with
  | nil => cases h
  | cons x xs ih =>
    rw [List.foldl_cons]
    by_cases hxs : q ∈ xs
    · exact ih _ hxs
    · have hq : q = x := by
        rcases List.mem_cons.1 h with h1 | h2
        · exact h1
        · exact absurd h2 hxs
      rw [alookup_foldl_skipNode_results_notMem xs _ hxs]
      show alookup (dictUpsert st.results x none) q = some none
      rw [alookup_upsert, if_pos hq]

theorem alookup_foldl_skipNode_deg_notMem (l : List String) (st : PoolSt)
    {q : String} (h : q ∉ l) :
    alookup (l.foldl skipNode st).in_degree q = alookup st.in_degree q := by
  induction l generalizing st with
  | nil => rfl
  | cons x xs ih =>
    rw [List.foldl_cons, ih _ (fun hq => h (List.mem_cons_of_mem x hq))]
    show alookup (eraseKey st.in_degree x) q = alookup st.in_degree q
    rw [alookup_eraseKey,
      if_neg (fun hq => h (by rw [hq]; exact List.mem_cons_self x xs))]

theorem mem_keys_foldl_skipNode (l : List String) (st : PoolSt) (q : String) :
    q ∈ (l.foldl skipNode st).in_degree.map Prod.fst ↔
      q ∈ st.in_degree.map Prod.fst ∧ q ∉ l := by
  induction l generalizing st with
  | nil => simp
  | cons x xs ih =>
    rw [List.foldl_cons, ih]
    show q ∈ (eraseKey st.in_degree x).map Prod.fst ∧ q ∉ xs ↔ _
    rw [mem_keys_eraseKey]
    constructor
    · rintro ⟨⟨h1, h2⟩, h3⟩
      exact ⟨h1, by
        intro hm
        rcases List.mem_cons.1 hm with hh | hh
        · exact h2 hh
        · exact h3 hh⟩
    · rintro ⟨h1, h2⟩
      exact ⟨⟨h1, fun hq => h2 (by rw [hq]; exact List.mem_cons_self x xs)⟩,
        fun hq => h2 (List.mem_cons_of_mem x hq)⟩

theorem nodup_keys_foldl_skipNode (l : List String) (st : PoolSt)
    (h : (st.in_degree.map Prod.fst).Nodup) :
    ((l.foldl skipNode st).in_degree.map Prod.fst).Nodup := by
  induction l generalizing st with
  | nil => exact h
  | cons x xs ih =>
    rw [List.foldl_cons]
    exact ih _ (nodup_keys_eraseKey h)

theorem alookup_foldl_upsert_none_notMem
    (l : List String) (res : List (String × Option Result)) {q : String}
    (h : q ∉ l) :
    alookup (l.foldl (fun acc n => dictUpsert acc n none) res) q =
      alookup res q := by
  induction l generalizing res with
  | nil => rfl
  | cons x xs ih =>
    rw [List.foldl_cons, ih _ (fun hq => h (List.mem_cons_of_mem x hq)),
      alookup_upsert,
      if_neg (fun hq => h (by rw [hq]; exact List.mem_cons_self x xs))]

theorem alookup_foldl_upsert_none_mem
    (l : List String) (res : List (String × Option Result)) {q : String}
    (h : q ∈ l) :
    alookup (l.foldl (fun acc n => dictUpsert acc n none) res) q =
      some none := by
  induction l generalizing res with
  | nil => cases h
  | cons x xs ih =>
    rw [List.foldl_cons]
    by_cases hxs : q ∈ xs
    · exact ih _ hxs
    · have hq : q = x := by
        rcases List.mem_cons.1 h with h1 | h2
        · exact h1
        · exact absurd h2 hxs
      rw [alookup_foldl_upsert_none_notMem xs _ hxs, alookup_upsert,
        if_pos hq]

theorem mem_downstreamOf {up : List (String × List String)}
    (hUp : (up.map Prod.fst).Nodup) (B D : String) :
    D ∈ downstreamOf up B ↔
      D ∈ up.map Prod.fst ∧ B ∈ upstreamOf up D := by
  unfold downstreamOf upstreamOf
  constructor
  · intro h
    rw [List.mem_map] at h
    obtain ⟨p, hp, rfl⟩ := h
    have hf := List.mem_filter.1 hp
    refine ⟨List.mem_map.2 ⟨p, hf.1, rfl⟩, ?_⟩
    rw [alookup_eq_of_mem hUp hf.1]
    simpa using hf.2
  · rintro ⟨h1, h2⟩
    cases hl : alookup up D with
    | none => rw [hl] at h2; cases h2
    | some deps =>
      rw [hl] at h2
      exact List.mem_map.2 ⟨(D, deps), List.mem_filter.2
        ⟨alookup_mem hl, by simpa using h2⟩, rfl⟩

theorem nodup_downstreamOf {up : List (String × List String)}
    (hUp : (up.map Prod.fst).Nodup) (B : String) :
    (downstreamOf up B).Nodup :=
  hUp.sublist (List.Sublist.map Prod.fst (List.filter_sublist up))

theorem countP_flip {l : List String} (hl : l.Nodup) {p q : String → Bool}
    {x : String} (hx : x ∈ l) (hpq : ∀ y ∈ l, y ≠ x → p y = q y)
    (hpx : p x = true) (hqx : q x = false) :
    l.countP p = l.countP q + 1 := by
  induction l with
  | nil => cases hx
  | cons a t ih =>
    rw [List.countP_cons, List.countP_cons]
    rcases List.mem_cons.1 hx with rfl | hxt
    · have hat : x ∉ t := (List.nodup_cons.1 hl).1
      have ht : t.countP p = t.countP q :=
        List.countP_congr (fun y hy => by
          rw [hpq y (List.mem_cons_of_mem _ hy) (fun hyx => hat (hyx ▸ hy))])
      rw [ht, hpx, hqx]
      simp
    · have ha : a ≠ x := fun h => (List.nodup_cons.1 hl).1 (h ▸ hxt)
      rw [hpq a (List.mem_cons_self a t) ha]
      have := ih (List.nodup_cons.1 hl).2 hxt
        (fun y hy hne => hpq y (List.mem_cons_of_mem a hy) hne)
      omega

theorem countP_congr_eq {l : List String} {p q : String → Bool}
    (h : ∀ y ∈ l, p y = q y) : l.countP p = l.countP q :=
  List.countP_congr (fun y hy => by rw [h y hy])

/-- The loop invariant of `DAGPool._exec` (with `up` the transitively
closed upstream map): pending keys are graph nodes without results and
with an accurate remaining-degree count, in-flight futures are pending
nodes whose whole upstream succeeded, a zero-exit result has an
all-successful upstream, and every node downstream of a recorded failure
is already recorded as skipped. -/
structure PoolInv (up : List (String × List String)) (st : PoolSt) : Prop
    where
  keys_sub : ∀ n ∈ st.in_degree.map Prod.fst, n ∈ up.map Prod.fst
  keys_nodup : (st.in_degree.map Prod.fst).Nodup
  fut_sub : ∀ n ∈ st.futures, n ∈ st.in_degree.map Prod.fst
  fut_nodup : st.futures.Nodup
  res_none : ∀ n ∈ st.in_degree.map Prod.fst, alookup st.results n = none
  fut_ok : ∀ n ∈ st.futures, ∀ U ∈ upstreamOf up n,
    succRes st.results U = true
  deg_count : ∀ n ∈ st.in_degree.map Prod.fst,
    alookup st.in_degree n =
      some ((upstreamOf up n).dedup.countP
        (fun U => ! succRes st.results U))
  succ_up : ∀ n r, alookup st.results n = some (some r) → r.code = 0 →
    ∀ U ∈ upstreamOf up n, succRes st.results U = true
  fail_skip : ∀ B r, alookup st.results B = some (some r) → r.code ≠ 0 →
    ∀ D ∈ up.map Prod.fst, B ∈ upstreamOf up D →
      alookup st.results D = some none

theorem poolInv_skipNode {up : List (String × List String)} {st : PoolSt}
    (h : PoolInv up st) {name : String}
    (hsucc : succRes st.results name = false)
    (hnf : name ∉ st.futures) : PoolInv up (skipNode st name) := by
  have hpt : ∀ U, succRes (skipNode st name).results U =
      succRes st.results U :=
    fun U => succRes_skip_pointwise st.results name hsucc U
  refine ⟨?_, ?_, ?_, ?_, ?_, ?_, ?_, ?_, ?_⟩
  · intro n hn
    exact h.keys_sub n (mem_keys_eraseKey.1 hn).1
  · exact nodup_keys_eraseKey h.keys_nodup
  · intro n hn
    exact mem_keys_eraseKey.2 ⟨h.fut_sub n hn,
      fun hEq => hnf (hEq ▸ hn)⟩
  · exact h.fut_nodup
  · intro n hn
    obtain ⟨hn1, hn2⟩ := mem_keys_eraseKey.1 hn
    show alookup (dictUpsert st.results name none) n = none
    rw [alookup_upsert, if_neg hn2]
    exact h.res_none n hn1
  · intro n hn U hU
    rw [hpt U]
    exact h.fut_ok n hn U hU
  · intro n hn
    obtain ⟨hn1, hn2⟩ := mem_keys_eraseKey.1 hn
    show alookup (eraseKey st.in_degree name) n = _
    rw [alookup_eraseKey, if_neg hn2, h.deg_count n hn1]
    exact congrArg some (countP_congr_eq (fun U _ => by rw [hpt U]))
  · intro n r hres hcode U hU
    rw [hpt U]
    by_cases hEq : n = name
    · rw [show alookup (skipNode st name).results n = some none from by
        show alookup (dictUpsert st.results name none) n = some none
        rw [alookup_upsert, if_pos hEq]] at hres
      cases hres
    · refine h.succ_up n r ?_ hcode U hU
      show alookup st.results n = some (some r)
      have : alookup (dictUpsert st.results name none) n =
          alookup st.results n := by rw [alookup_upsert, if_neg hEq]
      rw [← this]
      exact hres
  · intro B r hres hcode D hD hBD
    show alookup (dictUpsert st.results name none) D = some none
    by_cases hDEq : D = name
    · rw [alookup_upsert, if_pos hDEq]
    · rw [alookup_upsert, if_neg hDEq]
      by_cases hBEq : B = name
      · rw [show alookup (skipNode st name).results B = some none from by
          show alookup (dictUpsert st.results name none) B = some none
          rw [alookup_upsert, if_pos hBEq]] at hres
        cases hres
      · refine h.fail_skip B r ?_ hcode D hD hBD
        have : alookup (dictUpsert st.results name none) B =
            alookup st.results B := by rw [alookup_upsert, if_neg hBEq]
        rw [← this]
        exact hres

theorem submitOne_deg_ne {up : List (String × List String)} {st : PoolSt}
    {n q : String} (hq : q ≠ n) :
    alookup (submitOne up st n).in_degree q = alookup st.in_degree q := by
  unfold submitOne
  by_cases h1 : n ∈ st.futures
  · rw [if_pos h1]
  · rw [if_neg h1]
    by_cases h2 : (upstreamOf up n).any (fun dep => decide (dep ∈ st.failed))
    · rw [if_pos h2]
      show alookup (eraseKey st.in_degree n) q = _
      rw [alookup_eraseKey, if_neg hq]
    · rw [if_neg h2]

theorem poolInv_submitOne {up : List (String × List String)} {st : PoolSt}
    {n : String} (h : PoolInv up st)
    (hdeg : alookup st.in_degree n = some 0) :
    PoolInv up (submitOne up st n) := by
  unfold submitOne
  by_cases h1 : n ∈ st.futures
  · rw [if_pos h1]
    exact h
  · rw [if_neg h1]
    have hkeys : n ∈ st.in_degree.map Prod.fst := mem_keys_of_alookup hdeg
    by_cases h2 : (upstreamOf up n).any (fun dep => decide (dep ∈ st.failed))
    · rw [if_pos h2]
      exact poolInv_skipNode h
        (succRes_none_of_alookup_none (h.res_none n hkeys)) h1
    · rw [if_neg h2]
      have hcount : ((upstreamOf up n).dedup.countP
          (fun U => ! succRes st.results U)) = 0 := by
        have := h.deg_count n hkeys
        rw [hdeg] at this
        exact (Option.some.inj this).symm
      refine ⟨h.keys_sub, h.keys_nodup, ?_, ?_, h.res_none, ?_,
        h.deg_count, h.succ_up, h.fail_skip⟩
      · intro m hm
        rcases List.mem_append.1 hm with hm1 | hm2
        · exact h.fut_sub m hm1
        · rw [List.mem_singleton.1 hm2]
          exact hkeys
      · rw [List.nodup_append]
        exact ⟨h.fut_nodup, List.nodup_singleton n,
          fun a ha hb => h1 ((List.mem_singleton.1 hb) ▸ ha)⟩
      · intro m hm U hU
        rcases List.mem_append.1 hm with hm1 | hm2
        · exact h.fut_ok m hm1 U hU
        · rw [List.mem_singleton.1 hm2] at hU
          have := List.countP_eq_zero.1 hcount U (List.mem_dedup.2 hU)
          simpa using this

theorem poolInv_submit_fold {up : List (String × List String)} :
    ∀ (rem : List String) (cur : PoolSt), PoolInv up cur → rem.Nodup →
      (∀ m ∈ rem, alookup cur.in_degree m = some 0) →
      PoolInv up (rem.foldl (submitOne up) cur) := by
  intro rem
  induction rem with
  | nil => intro cur h _ _; exact h
  | cons x xs ih =>
    intro cur h hnd hz
    rw [List.foldl_cons]
    refine ih _ (poolInv_submitOne h (hz x (List.mem_cons_self x xs)))
      (List.nodup_cons.1 hnd).2 ?_
    intro m hm
    have hmx : m ≠ x := fun hEq => (List.nodup_cons.1 hnd).1 (hEq ▸ hm)
    rw [submitOne_deg_ne hmx]
    exact hz m (List.mem_cons_of_mem x hm)

theorem poolInv_submitReady {up : List (String × List String)} {st : PoolSt}
    (h : PoolInv up st) : PoolInv up (submitReady up st) := by
  unfold submitReady
  refine poolInv_submit_fold _ _ h
    (h.keys_nodup.sublist (List.Sublist.map Prod.fst
      (List.filter_sublist _))) ?_
  intro m hm
  rw [List.mem_map] at hm
  obtain ⟨p, hp, rfl⟩ := hm
  have hf := List.mem_filter.1 hp
  have h2 : p.2 = 0 := by simpa using hf.2
  rw [alookup_eq_of_mem h.keys_nodup hf.1, h2]

theorem finishOne_fail_eq {up : List (String × List String)}
    {run : String → Result} {st : PoolSt} {name : String}
    {rest : List String} (hcode : (run name).code ≠ 0) :
    finishOne up run st name rest =
      { in_degree := eraseKey ((downstreamOf up name).foldl skipNode
          { st with
            results := dictUpsert st.results name (some (run name)),
            failed := name :: st.failed }).in_degree name,
        results := ((downstreamOf up name).foldl skipNode
          { st with
            results := dictUpsert st.results name (some (run name)),
            failed := name :: st.failed }).results,
        failed := ((downstreamOf up name).foldl skipNode
          { st with
            results := dictUpsert st.results name (some (run name)),
            failed := name :: st.failed }).failed,
        futures := rest } := by
  unfold finishOne
  rw [if_pos hcode]

theorem finishOne_succ_eq {up : List (String × List String)}
    {run : String → Result} {st : PoolSt} {name : String}
    {rest : List String} (hcode : ¬ (run name).code ≠ 0) :
    finishOne up run st name rest =
      { in_degree :=
          eraseKey ((downstreamOf up name).foldl decDegree st.in_degree) name,
        results := dictUpsert st.results name (some (run name)),
        failed := st.failed,
        futures := rest } := by
  unfold finishOne
  rw [if_neg hcode]

theorem alookup_eq_none_of_not_mem_keys {α : Type} {l : List (String × α)}
    {q : String} (h : q ∉ l.map Prod.fst) : alookup l q = none := by
  cases hl : alookup l q with
  | none => rfl
  | some v => exact absurd (mem_keys_of_alookup hl) h

/-- `_finish` on a failing result, abstractly: if the new state `stF`
records `some r` for `name`, skips (`some none`) every downstream node,
drops them and `name` from the pending keys, and leaves everything else
alone, the loop invariant carries over. -/
theorem poolInv_of_fail_char {up : List (String × List String)}
    {st stF : PoolSt} {name : String} {rest : List String} {r : Result}
    (hUp : (up.map Prod.fst).Nodup)
    (h : PoolInv up st) (hfut : st.futures = name :: rest)
    (hcode : r.code ≠ 0)
    (hKeys : ∀ q, q ∈ stF.in_degree.map Prod.fst ↔
      q ∈ st.in_degree.map Prod.fst ∧ q ∉ downstreamOf up name ∧ q ≠ name)
    (hKeysN : (stF.in_degree.map Prod.fst).Nodup)
    (hDeg : ∀ q, q ∉ downstreamOf up name → q ≠ name →
      alookup stF.in_degree q = alookup st.in_degree q)
    (hResD : ∀ q ∈ downstreamOf up name, alookup stF.results q = some none)
    (hResName : alookup stF.results name = some (some r))
    (hResO : ∀ q, q ∉ downstreamOf up name → q ≠ name →
      alookup stF.results q = alookup st.results q)
    (hFut : stF.futures = rest) : PoolInv up stF := by
  have hnameF : name ∈ st.futures := by
    rw [hfut]
    exact List.mem_cons_self name rest
  have hnameK : name ∈ st.in_degree.map Prod.fst := h.fut_sub name hnameF
  have hnameU : name ∈ up.map Prod.fst := h.keys_sub name hnameK
  have hresN : alookup st.results name = none := h.res_none name hnameK
  have hsuccN : succRes st.results name = false :=
    succRes_none_of_alookup_none hresN
  have hconsN : name ∉ rest ∧ rest.Nodup := by
    have hf2 := h.fut_nodup
    rw [hfut] at hf2
    exact ⟨(List.nodup_cons.1 hf2).1, (List.nodup_cons.1 hf2).2⟩
  have hrestF : ∀ m ∈ rest, m ∈ st.futures := by
    intro m hm
    rw [hfut]
    exact List.mem_cons_of_mem name hm
  have hDs : ∀ q, q ∈ downstreamOf up name ↔
      q ∈ up.map Prod.fst ∧ name ∈ upstreamOf up q :=
    fun q => mem_downstreamOf hUp name q
  have hDsucc : ∀ q ∈ downstreamOf up name,
      succRes st.results q = false := by
    intro q hq
    cases hl : alookup st.results q with
    | none => exact succRes_none_of_alookup_none hl
    | some o =>
      cases o with
      | none =>
        unfold succRes
        rw [hl]
      | some rr =>
        by_cases hc : rr.code = 0
        · have := h.succ_up q rr hl hc name ((hDs q).1 hq).2
          rw [hsuccN] at this
          cases this
        · unfold succRes
          rw [hl]
          simp [hc]
  have hSucPt : ∀ U, succRes stF.results U = succRes st.results U := by
    intro U
    by_cases hUD : U ∈ downstreamOf up name
    · calc succRes stF.results U = false := by
            unfold succRes
            rw [hResD U hUD]
        _ = succRes st.results U := (hDsucc U hUD).symm
    · by_cases hUn : U = name
      · subst hUn
        calc succRes stF.results U = decide (r.code = 0) := by
              unfold succRes
              rw [hResName]
          _ = false := by simp [hcode]
          _ = succRes st.results U := hsuccN.symm
      · unfold succRes
        rw [hResO U hUD hUn]
  have hRestNoD : ∀ n ∈ rest, n ∉ downstreamOf up name := by
    intro n hn hnD
    have := h.fut_ok n (hrestF n hn) name ((hDs n).1 hnD).2
    rw [hsuccN] at this
    cases this
  refine ⟨?_, hKeysN, ?_, ?_, ?_, ?_, ?_, ?_, ?_⟩
  · intro q hq
    exact h.keys_sub q ((hKeys q).1 hq).1
  · intro n hn
    rw [hFut] at hn
    exact (hKeys n).2 ⟨h.fut_sub n (hrestF n hn), hRestNoD n hn,
      fun hEq => hconsN.1 (hEq ▸ hn)⟩
  · rw [hFut]
    exact hconsN.2
  · intro q hq
    obtain ⟨hq1, hq2, hq3⟩ := (hKeys q).1 hq
    rw [hResO q hq2 hq3]
    exact h.res_none q hq1
  · intro n hn U hU
    rw [hFut] at hn
    rw [hSucPt U]
    exact h.fut_ok n (hrestF n hn) U hU
  · intro q hq
    obtain ⟨hq1, hq2, hq3⟩ := (hKeys q).1 hq
    rw [hDeg q hq2 hq3, h.deg_count q hq1]
    exact congrArg some (countP_congr_eq (fun U _ => by rw [hSucPt U]))
  · intro n rr hres hc U hU
    by_cases hnD : n ∈ downstreamOf up name
    · rw [hResD n hnD] at hres
      cases hres
    · by_cases hn : n = name
      · subst hn
        rw [hResName] at hres
        have hrr : r = rr := Option.some.inj (Option.some.inj hres)
        exact absurd hc (hrr ▸ hcode)
      · rw [hResO n hnD hn] at hres
        rw [hSucPt U]
        exact h.succ_up n rr hres hc U hU
  · intro B rr hres hc D hD hBD
    by_cases hBDown : B ∈ downstreamOf up name
    · rw [hResD B hBDown] at hres
      cases hres
    · by_cases hB : B = name
      · subst hB
        exact hResD D ((hDs D).2 ⟨hD, hBD⟩)
      · rw [hResO B hBDown hB] at hres
        have hold := h.fail_skip B rr hres hc D hD hBD
        by_cases hDDown : D ∈ downstreamOf up name
        · exact hResD D hDDown
        · have hDn : D ≠ name := by
            intro hEq
            rw [hEq, hresN] at hold
            cases hold
          rw [hResO D hDDown hDn]
          exact hold

/-- `_finish` on a zero-exit result, abstractly: if the new state `stF`
records `some r` for `name`, decrements every downstream degree, drops
`name` from the pending keys, and leaves everything else alone, the loop
invariant carries over. -/
theorem poolInv_of_succ_char {up : List (String × List String)}
    {st stF : PoolSt} {name : String} {rest : List String} {r : Result}
    (hUp : (up.map Prod.fst).Nodup)
    (hIrr : ∀ m ∈ up.map Prod.fst, m ∉ upstreamOf up m)
    (h : PoolInv up st) (hfut : st.futures = name :: rest)
    (hcode : r.code = 0)
    (hKeys : ∀ q, q ∈ stF.in_degree.map Prod.fst ↔
      q ∈ st.in_degree.map Prod.fst ∧ q ≠ name)
    (hKeysN : (stF.in_degree.map Prod.fst).Nodup)
    (hDegD : ∀ q, q ≠ name → q ∈ downstreamOf up name →
      alookup stF.in_degree q = (alookup st.in_degree q).map (fun x => x - 1))
    (hDegO : ∀ q, q ≠ name → q ∉ downstreamOf up name →
      alookup stF.in_degree q = alookup st.in_degree q)
    (hResName : alookup stF.results name = some (some r))
    (hResO : ∀ q, q ≠ name → alookup stF.results q = alookup st.results q)
    (hFut : stF.futures = rest) : PoolInv up stF := by
  have hnameF : name ∈ st.futures := by
    rw [hfut]
    exact List.mem_cons_self name rest
  have hnameK : name ∈ st.in_degree.map Prod.fst := h.fut_sub name hnameF
  have hnameU : name ∈ up.map Prod.fst := h.keys_sub name hnameK
  have hresN : alookup st.results name = none := h.res_none name hnameK
  have hsuccN : succRes st.results name = false :=
    succRes_none_of_alookup_none hresN
  have hconsN : name ∉ rest ∧ rest.Nodup := by
    have hf2 := h.fut_nodup
    rw [hfut] at hf2
    exact ⟨(List.nodup_cons.1 hf2).1, (List.nodup_cons.1 hf2).2⟩
  have hrestF : ∀ m ∈ rest, m ∈ st.futures := by
    intro m hm
    rw [hfut]
    exact List.mem_cons_of_mem name hm
  have hDs : ∀ q, q ∈ downstreamOf up name ↔
      q ∈ up.map Prod.fst ∧ name ∈ upstreamOf up q :=
    fun q => mem_downstreamOf hUp name q
  have hSucNew : succRes stF.results name = true := by
    unfold succRes
    rw [hResName]
    simp [hcode]
  have hSucO : ∀ U, U ≠ name →
      succRes stF.results U = succRes st.results U := by
    intro U hU
    unfold succRes
    rw [hResO U hU]
  refine ⟨?_, hKeysN, ?_, ?_, ?_, ?_, ?_, ?_, ?_⟩
  · intro q hq
    exact h.keys_sub q ((hKeys q).1 hq).1
  · intro n hn
    rw [hFut] at hn
    exact (hKeys n).2 ⟨h.fut_sub n (hrestF n hn),
      fun hEq => hconsN.1 (hEq ▸ hn)⟩
  · rw [hFut]
    exact hconsN.2
  · intro q hq
    obtain ⟨hq1, hq2⟩ := (hKeys q).1 hq
    rw [hResO q hq2]
    exact h.res_none q hq1
  · intro n hn U hU
    rw [hFut] at hn
    by_cases hUn : U = name
    · rw [hUn]
      exact hSucNew
    · rw [hSucO U hUn]
      exact h.fut_ok n (hrestF n hn) U hU
  · intro q hq
    obtain ⟨hq1, hq2⟩ := (hKeys q).1 hq
    by_cases hqD : q ∈ downstreamOf up name
    · rw [hDegD q hq2 hqD, h.deg_count q hq1]
      have hmem : name ∈ (upstreamOf up q).dedup :=
        List.mem_dedup.2 ((hDs q).1 hqD).2
      have hflip : (upstreamOf up q).dedup.countP
            (fun U => ! succRes st.results U) =
          (upstreamOf up q).dedup.countP
            (fun U => ! succRes stF.results U) + 1 :=
        countP_flip (List.nodup_dedup _) hmem
          (fun y _ hy => by rw [hSucO y hy])
          (by rw [hsuccN]; rfl) (by rw [hSucNew]; rfl)
      rw [hflip]
      rfl
    · rw [hDegO q hq2 hqD, h.deg_count q hq1]
      refine congrArg some (countP_congr_eq (fun U hUm => ?_))
      have hUn : U ≠ name := by
        intro hEq
        exact hqD ((hDs q).2 ⟨h.keys_sub q hq1,
          hEq ▸ List.mem_dedup.1 hUm⟩)
      rw [hSucO U hUn]
  · intro n rr hres hc U hU
    by_cases hn : n = name
    · subst hn
      have hUn : U ≠ n := by
        intro hEq
        exact hIrr n hnameU (hEq ▸ hU)
      rw [hSucO U hUn]
      exact h.fut_ok n hnameF U hU
    · rw [hResO n hn] at hres
      by_cases hUn : U = name
      · rw [hUn]
        exact hSucNew
      · rw [hSucO U hUn]
        exact h.succ_up n rr hres hc U hU
  · intro B rr hres hc D hD hBD
    by_cases hB : B = name
    · subst hB
      rw [hResName] at hres
      have hrr : r = rr := Option.some.inj (Option.some.inj hres)
      exact absurd hcode (hrr ▸ hc)
    · rw [hResO B hB] at hres
      have hold := h.fail_skip B rr hres hc D hD hBD
      have hDn : D ≠ name := by
        intro hEq
        rw [hEq, hresN] at hold
        cases hold
      rw [hResO D hDn]
      exact hold

theorem poolInv_finishOne_fail {up : List (String × List String)}
    {st : PoolSt} {name : String} {rest : List String}
    {run : String → Result}
    (hUp : (up.map Prod.fst).Nodup)
    (hIrr : ∀ m ∈ up.map Prod.fst, m ∉ upstreamOf up m)
    (h : PoolInv up st) (hfut : st.futures = name :: rest)
    (hcode : (run name).code ≠ 0) :
    PoolInv up (finishOne up run st name rest) := by
  have hnameU : name ∈ up.map Prod.fst :=
    h.keys_sub name (h.fut_sub name (by
      rw [hfut]
      exact List.mem_cons_self name rest))
  have hnameD : name ∉ downstreamOf up name :=
    fun hd => hIrr name hnameU ((mem_downstreamOf hUp name name).1 hd).2
  rw [finishOne_fail_eq hcode]
  refine poolInv_of_fail_char hUp h hfut hcode ?_ ?_ ?_ ?_ ?_ ?_ rfl
  · intro q
    rw [mem_keys_eraseKey, mem_keys_foldl_skipNode]
    constructor
    · rintro ⟨⟨a, b⟩, c⟩
      exact ⟨a, b, c⟩
    · rintro ⟨a, b, c⟩
      exact ⟨⟨a, b⟩, c⟩
  · exact nodup_keys_eraseKey (nodup_keys_foldl_skipNode _ _ h.keys_nodup)
  · intro q hqD hqn
    rw [alookup_eraseKey, if_neg hqn,
      alookup_foldl_skipNode_deg_notMem _ _ hqD]
  · intro q hq
    exact alookup_foldl_skipNode_results_mem _ _ hq
  · rw [alookup_foldl_skipNode_results_notMem _ _ hnameD]
    show alookup (dictUpsert st.results name (some (run name))) name = _
    rw [alookup_upsert, if_pos rfl]
  · intro q hqD hqn
    rw [alookup_foldl_skipNode_results_notMem _ _ hqD]
    show alookup (dictUpsert st.results name (some (run name))) q = _
    rw [alookup_upsert, if_neg hqn]

theorem poolInv_finishOne_succ {up : List (String × List String)}
    {st : PoolSt} {name : String} {rest : List String}
    {run : String → Result}
    (hUp : (up.map Prod.fst).Nodup)
    (hIrr : ∀ m ∈ up.map Prod.fst, m ∉ upstreamOf up m)
    (h : PoolInv up st) (hfut : st.futures = name :: rest)
    (hcode : (run name).code = 0) :
    PoolInv up (finishOne up run st name rest) := by
  rw [finishOne_succ_eq (fun hne => hne hcode)]
  refine poolInv_of_succ_char hUp hIrr h hfut hcode ?_ ?_ ?_ ?_ ?_ ?_ rfl
  · intro q
    rw [mem_keys_eraseKey, keys_foldl_decDegree]
  · refine nodup_keys_eraseKey ?_
    rw [keys_foldl_decDegree]
    exact h.keys_nodup
  · intro q hqn hqD
    rw [alookup_eraseKey, if_neg hqn,
      alookup_foldl_decDegree_mem _ _ (nodup_downstreamOf hUp name) hqD]
  · intro q hqn hqD
    rw [alookup_eraseKey, if_neg hqn,
      alookup_foldl_decDegree_notMem _ _ hqD]
  · show alookup (dictUpsert st.results name (some (run name))) name = _
    rw [alookup_upsert, if_pos rfl]
  · intro q hqn
    show alookup (dictUpsert st.results name (some (run name))) q = _
    rw [alookup_upsert, if_neg hqn]

theorem poolInv_finishOne {up : List (String × List String)} {st : PoolSt}
    {name : String} {rest : List String}
    (hUp : (up.map Prod.fst).Nodup)
    (hIrr : ∀ m ∈ up.map Prod.fst, m ∉ upstreamOf up m)
    (h : PoolInv up st) (hfut : st.futures = name :: rest)
    (run : String → Result) :
    PoolInv up (finishOne up run st name rest) := by
  by_cases hcode : (run name).code = 0
  · exact poolInv_finishOne_succ hUp hIrr h hfut hcode
  · exact poolInv_finishOne_fail hUp hIrr h hfut hcode

theorem alookup_map_snd {α β : Type} (g : α → β)
    (l : List (String × α)) (q : String) :
    alookup (l.map (fun p => (p.1, g p.2))) q = (alookup l q).map g := by
  induction l with
  | nil => rfl
  | cons p t ih =>
    obtain ⟨k2, v2⟩ := p
    simp only [List.map_cons, alookup]
    by_cases hk : k2 = q
    · rw [if_pos hk, if_pos hk]
      rfl
    · rw [if_neg hk, if_neg hk, ih]

/-- The invariant holds at `DAGPool._exec`'s initial state
(`in_degree = {name: len(deps)}`, everything else empty). -/
theorem poolInv_init {up : List (String × List String)}
    (hUp : (up.map Prod.fst).Nodup) :
    PoolInv up ⟨up.map (fun nd => (nd.1, nd.2.dedup.length)), [], [], []⟩ := by
  have hkeysEq : (up.map
        (fun nd : String × List String => (nd.1, nd.2.dedup.length))).map
        Prod.fst = up.map Prod.fst := by
    rw [List.map_map]
    rfl
  refine ⟨?_, ?_, ?_, ?_, ?_, ?_, ?_, ?_, ?_⟩
  · intro n hn
    have hn2 : n ∈ (up.map
        (fun nd : String × List String =>
          (nd.1, nd.2.dedup.length))).map Prod.fst := hn
    rw [hkeysEq] at hn2
    exact hn2
  · show ((up.map (fun nd : String × List String =>
      (nd.1, nd.2.dedup.length))).map Prod.fst).Nodup
    rw [hkeysEq]
    exact hUp
  · intro n hn
    exact absurd hn (List.not_mem_nil n)
  · exact List.nodup_nil
  · intro n _
    rfl
  · intro n hn
    exact absurd hn (List.not_mem_nil n)
  · intro n hn
    have hn2 : n ∈ (up.map
        (fun nd : String × List String =>
          (nd.1, nd.2.dedup.length))).map Prod.fst := hn
    rw [hkeysEq] at hn2
    obtain ⟨p, hp, rfl⟩ := List.mem_map.1 hn2
    have hup2 : upstreamOf up p.1 = p.2 := by
      unfold upstreamOf
      rw [alookup_eq_of_mem hUp hp]
      rfl
    show alookup (up.map (fun nd : String × List String =>
      (nd.1, nd.2.dedup.length))) p.1 = _
    have hal : alookup (up.map (fun nd : String × List String =>
        (nd.1, nd.2.dedup.length))) p.1 =
        (alookup up p.1).map (fun deps => deps.dedup.length) :=
      alookup_map_snd (fun deps : List String => deps.dedup.length) up p.1
    rw [hal, alookup_eq_of_mem hUp hp, hup2]
    have hc : p.2.dedup.countP
        (fun U => ! succRes ([] : List (String × Option Result)) U) =
        p.2.dedup.length :=
      List.countP_eq_length.2 (fun a _ => rfl)
    rw [hc]
    rfl
  · intro n r hres
    simp [alookup] at hres
  · intro B r hres
    simp [alookup] at hres

theorem poolInv_dagLoop {up : List (String × List String)}
    (hUp : (up.map Prod.fst).Nodup)
    (hIrr : ∀ m ∈ up.map Prod.fst, m ∉ upstreamOf up m)
    (run : String → Result) :
    ∀ (f : Nat) (st : PoolSt), PoolInv up st →
      PoolInv up (dagLoop up run f st) := by
  intro f
  induction f with
  | zero =>
    intro st h
    exact h
  | succ f ih =>
    intro st h
    rw [dagLoop]
    by_cases hemp : st.in_degree.isEmpty
    · rw [if_pos hemp]
      exact h
    · rw [if_neg hemp]
      have h1 := poolInv_submitReady h
      show PoolInv up (match (submitReady up st).futures with
        | [] => submitReady up st
        | name :: rest =>
            dagLoop up run f (finishOne up run (submitReady up st) name rest))
      cases hfut : (submitReady up st).futures with
      | nil => exact h1
      | cons name rest => exact ih _ (poolInv_finishOne hUp hIrr h1 hfut run)

/-- The state at which the `while` loop of `DAGPool._exec` stops. -/
def dagFinal (up : List (String × List String)) (run : String → Result) :
    PoolSt :=
  dagLoop up run (up.length + 1)
    ⟨up.map (fun nd => (nd.1, nd.2.dedup.length)), [], [], []⟩

theorem dagExec_eq (up : List (String × List String))
    (run : String → Result) :
    dagExec up run = (dagFinal up run).futures.foldl
      (fun res n => dictUpsert res n none) (dagFinal up run).results := rfl

theorem poolInv_dagFinal {up : List (String × List String)}
    (hUp : (up.map Prod.fst).Nodup)
    (hIrr : ∀ m ∈ up.map Prod.fst, m ∉ upstreamOf up m)
    (run : String → Result) : PoolInv up (dagFinal up run) :=
  poolInv_dagLoop hUp hIrr run _ _ (poolInv_init hUp)

/-- The downstream-skip guarantee at the returned results map: a recorded
non-zero result forces `None` for every node it is upstream of. -/
theorem dagExec_fail_skip {up : List (String × List String)}
    {run : String → Result} (hUp : (up.map Prod.fst).Nodup)
    (hIrr : ∀ m ∈ up.map Prod.fst, m ∉ upstreamOf up m) :
    ∀ B r, alookup (dagExec up run) B = some (some r) → r.code ≠ 0 →
      ∀ D ∈ up.map Prod.fst, B ∈ upstreamOf up D →
        alookup (dagExec up run) D = some none := by
  have hfin := poolInv_dagFinal hUp hIrr run
  intro B r hres hc D hD hBD
  rw [dagExec_eq] at hres ⊢
  by_cases hBf : B ∈ (dagFinal up run).futures
  · rw [alookup_foldl_upsert_none_mem _ _ hBf] at hres
    cases hres
  · rw [alookup_foldl_upsert_none_notMem _ _ hBf] at hres
    have hold := hfin.fail_skip B r hres hc D hD hBD
    by_cases hDf : D ∈ (dagFinal up run).futures
    · rw [alookup_foldl_upsert_none_mem _ _ hDf]
    · rw [alookup_foldl_upsert_none_notMem _ _ hDf]
      exact hold

theorem le_foldl_max (c : Int) (cs : List Int) :
    c ≤ cs.foldl max c ∧ ∀ x ∈ cs, x ≤ cs.foldl max c := by
  induction cs generalizing c with
  | nil => exact ⟨le_refl c, fun x hx => absurd hx (List.not_mem_nil x)⟩
  | cons y ys ih =>
    rw [List.foldl_cons]
    refine ⟨le_trans (le_max_left c y) (ih (max c y)).1, ?_⟩
    intro x hx
    rcases List.mem_cons.1 hx with rfl | hxs
    · exact le_trans (le_max_right c x) (ih (max c x)).1
    · exact (ih (max c y)).2 x hxs

theorem foldl_max_mem (c : Int) (cs : List Int) :
    cs.foldl max c = c ∨ cs.foldl max c ∈ cs := by
  induction cs generalizing c with
  | nil => exact Or.inl rfl
  | cons y ys ih =>
    rw [List.foldl_cons]
    rcases ih (max c y) with h1 | h2
    · rcases max_choice c y with hm | hm
      · exact Or.inl (by rw [h1, hm])
      · exact Or.inr (by rw [h1, hm]; exact List.mem_cons_self y ys)
    · exact Or.inr (List.mem_cons_of_mem y h2)

/-- `Runner.exec` returns `max((r.code for r in results if r), default=0)`:
0 on an empty code list, else a maximum that is attained. -/
theorem runnerExec_spec (up : List (String × List String))
    (run : String → Result) :
    (((dagExec up run).filterMap Prod.snd).map Result.code = [] →
      runnerExec up run = 0) ∧
    (∀ c ∈ ((dagExec up run).filterMap Prod.snd).map Result.code,
      c ≤ runnerExec up run) ∧
    (((dagExec up run).filterMap Prod.snd).map Result.code ≠ [] →
      runnerExec up run ∈
        ((dagExec up run).filterMap Prod.snd).map Result.code) := by
  unfold runnerExec
  cases hl : ((dagExec up run).filterMap Prod.snd).map Result.code with
  | nil =>
    exact ⟨fun _ => rfl, fun c hc => absurd hc (List.not_mem_nil c),
      fun hne => absurd rfl hne⟩
  | cons c cs =>
    refine ⟨fun hEq => List.noConfusion hEq, ?_, fun _ => ?_⟩
    · intro x hx
      show x ≤ cs.foldl max c
      rcases List.mem_cons.1 hx with rfl | hxs
      · exact (le_foldl_max x cs).1
      · exact (le_foldl_max c cs).2 x hxs
    · show cs.foldl max c ∈ c :: cs
      rcases foldl_max_mem c cs with h1 | h2
      · rw [h1]
        exact List.mem_cons_self c cs
      · exact List.mem_cons_of_mem c h2

/-- The two-node strict dependency walkthrough of the spec: `test`
depends on `build`, and `build` fails with exit code 2. -/
def upBT : List (String × List String) := [("build", []), ("test", ["build"])]

/-- `build` exits 2, anything else exits 0. -/
def runBT : String → Result :=
  fun n => if n = "build" then ⟨some "", 2, "h"⟩ else ⟨some "", 0, "h"⟩

/-- C4: for every graph run (`up` the transitively closed upstream map of
`Graph.upstream`, with the duplicate-free keys of a Python dict and the
cycle-freedom `_get_graph` enforces), whenever a runnable completes with a
non-zero exit code, every runnable transitively downstream of it ends with
an absent (`None`) result in `DAGPool._exec`'s returned map; and
`Runner.exec`'s exit code is the maximum recorded code over present
results (0 when there are none). In particular on the build/test
fixture where `build` exits 2, `test` is skipped and the run exits 2. -/
theorem claim_C4_failure_skips_downstream_and_exit_code
    (up : List (String × List String)) (run : String → Result)
    (hUp : (up.map Prod.fst).Nodup)
    (hIrr : ∀ m ∈ up.map Prod.fst, m ∉ upstreamOf up m) :
    (∀ B r, alookup (dagExec up run) B = some (some r) → r.code ≠ 0 →
      ∀ D ∈ up.map Prod.fst, B ∈ upstreamOf up D →
        alookup (dagExec up run) D = some none) ∧
    (((dagExec up run).filterMap Prod.snd).map Result.code = [] →
      runnerExec up run = 0) ∧
    (∀ c ∈ ((dagExec up run).filterMap Prod.snd).map Result.code,
      c ≤ runnerExec up run) ∧
    (((dagExec up run).filterMap Prod.snd).map Result.code ≠ [] →
      runnerExec up run ∈
        ((dagExec up run).filterMap Prod.snd).map Result.code) ∧
    alookup (dagExec upBT runBT) "test" = some none ∧
    runnerExec upBT runBT = 2 :=
  ⟨dagExec_fail_skip hUp hIrr, (runnerExec_spec up run).1,
    (runnerExec_spec up run).2.1, (runnerExec_spec up run).2.2,
    by decide, by decide⟩

/-- C4 witness: the fixture satisfies the hypotheses, and the claim
applied to it skips `test` and exits 2. -/
theorem claim_C4_failure_skips_downstream_and_exit_code_witness :
    ((upBT.map Prod.fst).Nodup ∧
      (∀ m ∈ upBT.map Prod.fst, m ∉ upstreamOf upBT m)) ∧
    (alookup (dagExec upBT runBT) "test" = some none ∧
      runnerExec upBT runBT = 2) :=
  ⟨⟨by decide, by decide⟩,
    (claim_C4_failure_skips_downstream_and_exit_code upBT runBT
      (by decide) (by decide)).2.2.2.2⟩

/-- The `RunnableError` taxonomy (`errors.py` lines 170-190): domain
errors that fail one runnable rather than the whole run, with the doc
codes used in the rendered message. -/
inductive RunnableErr where
  | lockFileNotFound (m : String)
  | venvNotFound (m : String)
  | dotEnvNotFound (m : String)
  | distributionNotFound (m : String)
  deriving DecidableEq, Repr

def RunnableErr.code : RunnableErr → String
  | lockFileNotFound _ => "space0"
  | venvNotFound _ => "space1"
  | dotEnvNotFound _ => "space2"
  | distributionNotFound _ => "pydist0"

def RunnableErr.msg : RunnableErr → String
  | lockFileNotFound m => m
  | venvNotFound m => m
  | dotEnvNotFound m => m
  | distributionNotFound m => m

/-- `qik.errors.fmt_msg` on a `RunnableError` (no emoji/color, so
`console.fmt_msg` is the identity): the message plus the doc link. -/
def fmt_msg (exc : RunnableErr) : String :=
  exc.msg ++ " [reset][dim]See https://qik.build/en/stable/errors/#" ++
    exc.code ++ "[/dim]"

/-- `Runnable._uncached_exec`: the command body either produces
`(code, log)` or raises a `RunnableError`, which is caught and converted
to `code = 1` with the formatted message as the log; either way
`hash = self.hash()`. -/
def uncached_exec (body : Except RunnableErr (Int × String))
    (hashv : String) : Result :=
  match body with
  | Except.ok (code, log) => ⟨some log, code, hashv⟩
  | Except.error exc => ⟨some (fmt_msg exc), 1, hashv⟩

/-- `Runnable._exec`: a `RunnableError` from the cache lookup yields
`Result(log=fmt_msg(exc), code=1, hash="")`; a cache hit replays the
entry; otherwise the command runs uncached. -/
def runnable_exec (cacheLookup : Except RunnableErr (Option Entry))
    (body : Except RunnableErr (Int × String)) (hashv : String) : Result :=
  match cacheLookup with
  | Except.error exc => ⟨some (fmt_msg exc), 1, ""⟩
  | Except.ok (some entry) => Result.from_cache entry
  | Except.ok none => uncached_exec body hashv

/-- A `RunnableError` hit by `build` on the two-node fixture. -/
def excBT : RunnableErr := RunnableErr.venvNotFound "venv not found"

/-- `build` hits a `RunnableError`, anything else exits 0. -/
def runBTErr : String → Result :=
  fun n => if n = "build"
    then runnable_exec (Except.error excBT) (Except.ok (0, "")) "h"
    else ⟨some "", 0, "h"⟩

/-- C6: a `RunnableError` raised while running the command or during the
cache lookup is caught (both exec paths are total, so the run is not
terminated) and converted to a result with `code = 1` and the formatted
error message as `log`; the code is non-zero, and the scheduler treats
any recorded non-zero code as an ordinary failure, skipping every
transitively downstream runnable. -/
theorem claim_C6_runnable_error_handling :
    (∀ (exc : RunnableErr) (hashv : String),
      uncached_exec (Except.error exc) hashv =
        ⟨some (fmt_msg exc), 1, hashv⟩) ∧
    (∀ (exc : RunnableErr) (body : Except RunnableErr (Int × String))
        (hashv : String),
      runnable_exec (Except.error exc) body hashv =
        ⟨some (fmt_msg exc), 1, ""⟩) ∧
    (∀ (exc : RunnableErr) (hashv : String),
      (uncached_exec (Except.error exc) hashv).code ≠ 0) ∧
    (∀ (up : List (String × List String)) (run : String → Result),
      (up.map Prod.fst).Nodup →
      (∀ m ∈ up.map Prod.fst, m ∉ upstreamOf up m) →
      ∀ B r, alookup (dagExec up run) B = some (some r) → r.code ≠ 0 →
        ∀ D ∈ up.map Prod.fst, B ∈ upstreamOf up D →
          alookup (dagExec up run) D = some none) :=
  ⟨fun _ _ => rfl, fun _ _ _ => rfl,
    fun _ _ h => absurd (h : (1 : Int) = 0) one_ne_zero,
    fun _ _ hUp hIrr => dagExec_fail_skip hUp hIrr⟩

/-- C6 witness: on the build/test fixture where `build` hits a
`RunnableError`, the converted result carries code 1 with the formatted
log, and `test` is skipped by the scheduler. -/
theorem claim_C6_runnable_error_handling_witness :
    runnable_exec (Except.error excBT) (Except.ok (0, "")) "h" =
      ⟨some (fmt_msg excBT), 1, ""⟩ ∧
    alookup (dagExec upBT runBTErr) "test" = some none :=
  ⟨claim_C6_runnable_error_handling.2.1 excBT (Except.ok (0, "")) "h",
    claim_C6_runnable_error_handling.2.2.2 upBT runBTErr (by decide)
      (by decide) "build"
      (runnable_exec (Except.error excBT) (Except.ok (0, "")) "h")
      (by decide) (by decide) "test" (by decide) (by decide)⟩

end Qik
